import Mathlib

/-!
# JObject: the JSON value type of `JObject.h` / `JObject.cpp`

A shallow embedding of `json::JObject` and of its member functions.

* `std::string` is a Lean `String`, one character per `char`, ordered
  lexicographically by character value as `std::string::operator<` orders by
  unsigned `char`; `int32_t` is an `Int` (the 32-bit range is a hypothesis where
  it matters); `double` is its IEEE-754 bit pattern, and the rendering of a
  double is a parameter `dbl` of `to_string`, so that what does not depend on
  it is proved for every rendering; `os_double` is the rendering of the stream.
* `std::vector<JObject>` is a `List JObject`; `std::map<string, JObject>` is
  the list of its entries in iteration order, which for a `std::map` is the
  strictly ascending key order (`dict_wf`).
* A member function of the (mutable) object is a function from the object
  before the call to the outcome paired with the object after the call.
  An outcome is a returned value, a thrown `std::logic_error`, or undefined
  behaviour (null dereference, `pop_back` on an empty vector). Allocation
  failure is not modelled, and loop indices are unbounded naturals.
-/

namespace json

/-! ## Data model (`JObject.h`) -/

/-- The kind tag, `enum TYPE`. -/
inductive TYPE
  | T_NULL | T_BOOL | T_INT | T_DOUBLE | T_STR | T_LIST | T_DICT
  deriving DecidableEq, Repr

open TYPE

/-- A `double`, kept as its bit pattern; no arithmetic is performed on it. -/
structure double_t where
  bits : Nat
  deriving DecidableEq, Repr

mutual
/-- The payload `value_t = variant<bool_t, int_t, double_t, str_t, list_t, dict_t>`. -/
inductive value_t
  | bool (b : Bool)
  | int (i : Int)
  | double (d : double_t)
  | str (s : String)
  | list (l : List JObject)
  | dict (d : List (String × JObject))
/-- The class `JObject`: the two private members `m_type` and `m_value`. -/
inductive JObject
  | mk (m_type : TYPE) (m_value : value_t)
end

abbrev null_t := String
abbrev bool_t := Bool
abbrev int_t := Int
abbrev str_t := String
abbrev list_t := List JObject
abbrev dict_t := List (String × JObject)

/-- Member `m_type`. -/
def JObject.m_type : JObject → TYPE
  | ⟨t, _⟩ => t

/-- Member `m_value`. -/
def JObject.m_value : JObject → value_t
  | ⟨_, v⟩ => v

/-- The six types a `JObject::Value<V>()` call is instantiated with. -/
inductive VType
  | str_t | bool_t | int_t | double_t | list_t | dict_t
  deriving DecidableEq, Repr

/-- The C++ type denoted by a template argument. -/
@[reducible] def VType.type : VType → Type
  | .str_t => String
  | .bool_t => Bool
  | .int_t => Int
  | .double_t => json.double_t
  | .list_t => List JObject
  | .dict_t => List (String × JObject)

/-- What a call can end in besides returning: a thrown `std::logic_error`
carrying its `what()` text, or undefined behaviour. -/
inductive Fault
  | logic_error (what : String)
  | undefined_behaviour
  deriving DecidableEq, Repr

/-! ## The standard containers and streams used by the class -/

/-- The comparison `std::less<std::string>` of a `std::map`, decided by comparing
the two strings character by character. -/
instance string_lt_decidable (a b : String) : Decidable (a < b) :=
  decidable_of_iff (a.toList < b.toList) String.lt_iff_toList_lt.symm

/-- Lookup in a `std::map`, as `find` does: the value stored at `key`, if any. -/
def map_find (key : String) : dict_t → Option JObject
  | [] => none
  | (k, v) :: rest => if k = key then some v else map_find key rest

/-- The call `dict[key]` of `std::map::operator[]`: the map after the call and
the value of the entry the returned reference designates. When `key` is absent
a new entry holding `dflt` (a value-initialised `JObject`) is linked in at its
place in key order; when `key` is present the map is unchanged. -/
def map_subscript (key : String) (dflt : JObject) : dict_t → dict_t × JObject
  | [] => ([(key, dflt)], dflt)
  | (k, v) :: rest =>
      if key < k then ((key, dflt) :: (k, v) :: rest, dflt)
      else if k < key then
        let r := map_subscript key dflt rest
        ((k, v) :: r.1, r.2)
      else ((k, v) :: rest, v)

/-- Assignment through a reference to the entry at `key`: the entry's value is
replaced, the entry set is not changed. -/
def map_store (key : String) (item : JObject) : dict_t → dict_t
  | [] => []
  | (k, v) :: rest => if k = key then (k, item) :: rest else (k, v) :: map_store key item rest

/-- The map a caller builds from an empty `dict_t` by the assignments `m[k] = v`,
one per entry of `es`, in the order of `es`. -/
def dict_from (es : List (String × JObject)) (dflt : JObject) : dict_t :=
  es.foldl (fun m kv => map_store kv.1 kv.2 (map_subscript kv.1 dflt m).1) []

/-- The invariant of a `std::map`: iteration visits keys in strictly ascending order. -/
def dict_wf (d : dict_t) : Prop :=
  List.Pairwise (fun a b => a.1 < b.1) d

instance (d : dict_t) : Decidable (dict_wf d) := by
  unfold dict_wf; infer_instance

/-- Rendering of `os << int`: decimal digits, preceded by `-` when negative. -/
def os_int (i : Int) : String :=
  if i < 0 then String.mk ('-' :: Nat.toDigits 10 i.natAbs)
  else String.mk (Nat.toDigits 10 i.natAbs)

/-! ## Constructors, setters and accessors (`JObject.h`) -/

/-- Storage of an object whose constructor body has not run yet: the variant
holds its first alternative; `m_type` is overwritten before it is ever read. -/
def JObject.raw : JObject := ⟨T_NULL, .bool false⟩

/-- Setter `void Null()`. -/
def JObject.Null (self : JObject) : JObject :=
  let self : JObject := ⟨T_NULL, self.m_value⟩
  ⟨self.m_type, .str "null"⟩

/-- Setter `void Int(int_t value)`. -/
def JObject.Int (value : int_t) (self : JObject) : JObject :=
  let self : JObject := ⟨self.m_type, .int value⟩
  ⟨T_INT, self.m_value⟩

/-- Setter `void Bool(bool_t value)`. -/
def JObject.Bool (value : bool_t) (self : JObject) : JObject :=
  let self : JObject := ⟨self.m_type, .bool value⟩
  ⟨T_BOOL, self.m_value⟩

/-- Setter `void Double(double_t value)`. -/
def JObject.Double (value : double_t) (self : JObject) : JObject :=
  let self : JObject := ⟨T_DOUBLE, self.m_value⟩
  ⟨self.m_type, .double value⟩

/-- Setter `void Str(string_view value)`. -/
def JObject.Str (value : String) (self : JObject) : JObject :=
  let self : JObject := ⟨self.m_type, .str value⟩
  ⟨T_STR, self.m_value⟩

/-- Setter `void List(list_t value)`. -/
def JObject.List (value : list_t) (self : JObject) : JObject :=
  let self : JObject := ⟨self.m_type, .list value⟩
  ⟨T_LIST, self.m_value⟩

/-- Setter `void Dict(dict_t value)`. -/
def JObject.Dict (value : dict_t) (self : JObject) : JObject :=
  let self : JObject := ⟨self.m_type, .dict value⟩
  ⟨T_DICT, self.m_value⟩

/-- Constructor `JObject()`. -/
def JObject.new : JObject :=
  let self : JObject := ⟨T_NULL, JObject.raw.m_value⟩
  ⟨self.m_type, .str "null"⟩

/-- Constructor `JObject(int_t value)`. -/
def JObject.of_int (value : int_t) : JObject := Int value raw

/-- Constructor `JObject(double_t value)`. -/
def JObject.of_double (value : double_t) : JObject := Double value raw

/-- Constructor `JObject(bool_t value)`. -/
def JObject.of_bool (value : bool_t) : JObject := Bool value raw

/-- Constructor `JObject(str_t const &value)`. -/
def JObject.of_str (value : str_t) : JObject := Str value raw

/-- Constructor `JObject(list_t value)`. -/
def JObject.of_list (value : list_t) : JObject := List value raw

/-- Constructor `JObject(dict_t value)`. -/
def JObject.of_dict (value : dict_t) : JObject := Dict value raw

/-- Accessor `TYPE Type()`. -/
def JObject.Type_ (self : JObject) : TYPE := self.m_type

/-- The call `get_if<V>(&m_value)`: a pointer to the payload when `V` is the active
alternative, the null pointer (`none`) otherwise. The pointee is returned as
stored, as `void*` forgets its type. -/
def get_if (V : VType) (m_value : value_t) : Option value_t :=
  match V, m_value with
  | .str_t, .str s => some (.str s)
  | .bool_t, .bool b => some (.bool b)
  | .int_t, .int i => some (.int i)
  | .double_t, .double d => some (.double d)
  | .list_t, .list l => some (.list l)
  | .dict_t, .dict d => some (.dict d)
  | _, _ => none

/-- Private member `void* JObject::value()` (`JObject.cpp`). -/
def JObject.value (self : JObject) : Option value_t :=
  match self.m_type with
  | T_NULL => get_if .str_t self.m_value
  | T_BOOL => get_if .bool_t self.m_value
  | T_INT => get_if .int_t self.m_value
  | T_DOUBLE => get_if .double_t self.m_value
  | T_LIST => get_if .list_t self.m_value
  | T_DICT => get_if .dict_t self.m_value
  | T_STR => get_if .str_t self.m_value

/-- The expression `*((V *) v)` for a non-null `v`: reading the pointee as a `V`.
Reading it as another type than the one stored is undefined. -/
def deref (V : VType) (pointee : value_t) : Except Fault V.type :=
  match V, pointee with
  | .str_t, .str s => .ok s
  | .bool_t, .bool b => .ok b
  | .int_t, .int i => .ok i
  | .double_t, .double d => .ok d
  | .list_t, .list l => .ok l
  | .dict_t, .dict d => .ok d
  | _, _ => .error .undefined_behaviour

/-- The kind a `Value<V>()` call compares `m_type` with. -/
def VType.tag : VType → TYPE
  | .str_t => T_STR
  | .bool_t => T_BOOL
  | .int_t => T_INT
  | .double_t => T_DOUBLE
  | .list_t => T_LIST
  | .dict_t => T_DICT

/-- The text of `THROW_GET_ERROR(erron)` in each branch of `Value<V>()`. -/
def VType.get_error : VType → String
  | .str_t => "type error in get string value!"
  | .bool_t => "type error in get BOOL value!"
  | .int_t => "type error in get INT value!"
  | .double_t => "type error in get DOUBLE value!"
  | .list_t => "type error in get LIST value!"
  | .dict_t => "type error in get DICT value!"

/-- Member template `V &Value()`: the outcome, and the object after the call. -/
def JObject.Value (V : VType) (self : JObject) : Except Fault V.type × JObject :=
  if self.m_type ≠ V.tag then
    (.error (.logic_error V.get_error), self)
  else
    match self.value with
    | none => (.error (.logic_error "unknown type in JObject::Value()"), self)
    | some v => (deref V v, self)

/-- Member `void push_back(JObject item)`. -/
def JObject.push_back (item : JObject) (self : JObject) : Except Fault Unit × JObject :=
  if self.m_type = T_LIST then
    match Value .list_t self with
    | (.ok (list : list_t), self) => (.ok (), ⟨self.m_type, .list (list ++ [item])⟩)
    | (.error e, self) => (.error e, self)
  else
    (.error (.logic_error "not a list type! JObjcct::push_back()"), self)

/-- Member `void pop_back()`. `std::vector::pop_back` on an empty vector is undefined. -/
def JObject.pop_back (self : JObject) : Except Fault Unit × JObject :=
  if self.m_type = T_LIST then
    match Value .list_t self with
    | (.ok (list : list_t), self) =>
        if list.isEmpty then (.error .undefined_behaviour, self)
        else (.ok (), ⟨self.m_type, .list list.dropLast⟩)
    | (.error e, self) => (.error e, self)
  else
    (.error (.logic_error "not list type! JObjcct::pop_back()"), self)

/-- Member `JObject &operator[](string const &key)`. The returned reference is to
the entry at `key` of the object after the call; its current value is the outcome. -/
def JObject.subscript (key : String) (self : JObject) : Except Fault JObject × JObject :=
  if self.m_type = T_DICT then
    match Value .dict_t self with
    | (.ok (dict : dict_t), self) =>
        let r := map_subscript key JObject.new dict
        (.ok r.2, ⟨self.m_type, .dict r.1⟩)
    | (.error e, self) => (.error e, self)
  else
    (.error (.logic_error "not dict type! JObject::opertor[]()"), self)

/-- Copy assignment `ref = item` through the reference that `operator[](key)`
returned: the entry at `key` of a DICT payload is overwritten. -/
def JObject.store (key : String) (item : JObject) : JObject → JObject
  | ⟨t, .dict d⟩ => ⟨t, .dict (map_store key item d)⟩
  | self => self

/-! ## Serialization (`JObject.cpp`) -/

mutual
/-- Member `string JObject::to_string()`. Where the `switch` dereferences
`value` and `value()` returned the null pointer, the behaviour is undefined. -/
def JObject.to_string (dbl : double_t → String) : JObject → Except Fault String
  | ⟨T_NULL, _⟩ => .ok "null"
  | ⟨T_BOOL, .bool b⟩ => .ok (if b then "true" else "false")
  | ⟨T_INT, .int i⟩ => .ok (os_int i)
  | ⟨T_DOUBLE, .double d⟩ => .ok (dbl d)
  | ⟨T_STR, .str s⟩ => .ok ("\x22" ++ s ++ "\x22")
  | ⟨T_LIST, .list list⟩ =>
      match list_loop dbl list.length 0 list "[" with
      | .ok os => .ok (os ++ "]")
      | .error e => .error e
  | ⟨T_DICT, .dict dict⟩ =>
      match dict_loop dbl true dict "\x7b" with
      | .ok os => .ok (os ++ "\x7d")
      | .error e => .error e
  | _ => .error .undefined_behaviour
/-- The loop `for (auto i = 0; i < list.size(); i++)` of the `T_LIST` case, from
index `i` on: `size` is `list.size()`, the list argument holds the elements
`list[i], list[i+1], ...` and `os` the text written so far. -/
def list_loop (dbl : double_t → String) (size : Nat) (i : Nat) :
    List JObject → String → Except Fault String
  | [], os => .ok os
  | e :: rest, os =>
      match JObject.to_string dbl e with
      | .ok s =>
          if i ≠ size - 1 then list_loop dbl size (i + 1) rest (os ++ s ++ ",")
          else list_loop dbl size (i + 1) rest (os ++ s)
      | .error f => .error f
/-- The loop `for (auto it = dict.begin(); it != dict.end(); ++it)` of the `T_DICT`
case: `first` says whether `it == dict.begin()`, the list argument holds the
entries from `it` on and `os` the text written so far. -/
def dict_loop (dbl : double_t → String) (first : Bool) :
    List (String × JObject) → String → Except Fault String
  | [], os => .ok os
  | (k, v) :: rest, os =>
      match JObject.to_string dbl v with
      | .ok s =>
          dict_loop dbl false rest ((if first then os else os ++ ",") ++ "\x22" ++ k ++ "\x22:" ++ s)
      | .error f => .error f
end

/-! ## Well-formed values -/

/-- The class invariant at one node: the kind tag names the active alternative of
the payload (NULL and STRING both use the string alternative). -/
def JObject.consistent : JObject → Prop
  | ⟨T_NULL, .str _⟩ => True
  | ⟨T_BOOL, .bool _⟩ => True
  | ⟨T_INT, .int _⟩ => True
  | ⟨T_DOUBLE, .double _⟩ => True
  | ⟨T_STR, .str _⟩ => True
  | ⟨T_LIST, .list _⟩ => True
  | ⟨T_DICT, .dict _⟩ => True
  | _ => False

mutual
/-- The class invariant at every node of a Value tree. -/
def JObject.deep_consistent : JObject → Prop
  | ⟨T_NULL, .str _⟩ => True
  | ⟨T_BOOL, .bool _⟩ => True
  | ⟨T_INT, .int _⟩ => True
  | ⟨T_DOUBLE, .double _⟩ => True
  | ⟨T_STR, .str _⟩ => True
  | ⟨T_LIST, .list l⟩ => all_list_consistent l
  | ⟨T_DICT, .dict d⟩ => all_dict_consistent d
  | _ => False
/-- Every element of a sequence satisfies the invariant at every node. -/
def all_list_consistent : list_t → Prop
  | [] => True
  | e :: rest => e.deep_consistent ∧ all_list_consistent rest
/-- Every value of a mapping satisfies the invariant at every node. -/
def all_dict_consistent : dict_t → Prop
  | [] => True
  | (_, v) :: rest => v.deep_consistent ∧ all_dict_consistent rest
end

/-! ## Reference renderings -/

/-- The text of one entry of a DICT: the key between double quotes, a colon, and
the text of the value. -/
def entry_text (key : String) (value_text : String) : String :=
  "\x22" ++ key ++ "\x22:" ++ value_text

/-- The number a sequence of decimal digit characters denotes. -/
def decimal_value (ds : List Char) : Nat :=
  ds.foldl (fun acc c => 10 * acc + (c.toNat - 48)) 0

/-- A run of decimal digits in canonical form for the natural number `n`: it is
not empty, holds only the digits `0`..`9`, has no leading zero unless it is the
single digit `0`, and denotes `n`. -/
def digit_run (n : Nat) (ds : List Char) : Prop :=
  decimal_value ds = n ∧ ds ≠ [] ∧ (ds.head? = some '0' → ds = ['0']) ∧
    ∀ c ∈ ds, '0' ≤ c ∧ c ≤ '9'

/-- Canonical decimal text of an integer: an optional sign, `-` exactly for the
negative integers, followed by the canonical digit run of the magnitude. -/
def is_canonical_decimal (i : Int) (s : String) : Prop :=
  ∃ ds : List Char, digit_run i.natAbs ds ∧ s.data = (if i < 0 then '-' :: ds else ds)

/-! ## Properties of whole trees -/

mutual
/-- The property `P` holds at every node of a Value tree and `K` of every key of
every DICT payload in it. -/
def JObject.every (P : JObject → Prop) (K : String → Prop) : JObject → Prop
  | ⟨t, .list l⟩ => P ⟨t, .list l⟩ ∧ every_element P K l
  | ⟨t, .dict d⟩ => P ⟨t, .dict d⟩ ∧ every_entry P K d
  | ⟨t, .bool b⟩ => P ⟨t, .bool b⟩
  | ⟨t, .int i⟩ => P ⟨t, .int i⟩
  | ⟨t, .double f⟩ => P ⟨t, .double f⟩
  | ⟨t, .str s⟩ => P ⟨t, .str s⟩
/-- The elements of a sequence, for `JObject.every`. -/
def every_element (P : JObject → Prop) (K : String → Prop) : list_t → Prop
  | [] => True
  | e :: rest => e.every P K ∧ every_element P K rest
/-- The entries of a mapping, for `JObject.every`. -/
def every_entry (P : JObject → Prop) (K : String → Prop) : dict_t → Prop
  | [] => True
  | (k, v) :: rest => (K k ∧ v.every P K) ∧ every_entry P K rest
end

/-- Kind and payload of one node agree: NULL holds the string `null`, BOOL a
bool, INT an int, DOUBLE a double, STRING a string, LIST the sequence and DICT the
mapping. -/
def JObject.kind_matches : JObject → Prop
  | ⟨T_NULL, .str s⟩ => s = "null"
  | ⟨T_BOOL, .bool _⟩ => True
  | ⟨T_INT, .int _⟩ => True
  | ⟨T_DOUBLE, .double _⟩ => True
  | ⟨T_STR, .str _⟩ => True
  | ⟨T_LIST, .list _⟩ => True
  | ⟨T_DICT, .dict _⟩ => True
  | _ => False

/-- The class invariant of a Value and of every Value nested in it. -/
def JObject.invariant (x : JObject) : Prop :=
  x.every JObject.kind_matches (fun _ => True)

/-! ## Serialization as a member function of a mutable object -/

mutual
/-- Member `string JObject::to_string()` with the object after the call made
explicit: every call `list[i].to_string()` and `it->second.to_string()` hands back
the element it ran on, which stays at its place in the container. -/
def JObject.to_string_st (dbl : double_t → String) : JObject → Except Fault String × JObject
  | ⟨T_NULL, v⟩ => (.ok "null", ⟨T_NULL, v⟩)
  | ⟨T_BOOL, .bool b⟩ => (.ok (if b then "true" else "false"), ⟨T_BOOL, .bool b⟩)
  | ⟨T_INT, .int i⟩ => (.ok (os_int i), ⟨T_INT, .int i⟩)
  | ⟨T_DOUBLE, .double d⟩ => (.ok (dbl d), ⟨T_DOUBLE, .double d⟩)
  | ⟨T_STR, .str s⟩ => (.ok ("\x22" ++ s ++ "\x22"), ⟨T_STR, .str s⟩)
  | ⟨T_LIST, .list list⟩ =>
      match list_loop_st dbl list.length 0 list "[" with
      | (.ok os, list) => (.ok (os ++ "]"), ⟨T_LIST, .list list⟩)
      | (.error e, list) => (.error e, ⟨T_LIST, .list list⟩)
  | ⟨T_DICT, .dict dict⟩ =>
      match dict_loop_st dbl true dict "\x7b" with
      | (.ok os, dict) => (.ok (os ++ "\x7d"), ⟨T_DICT, .dict dict⟩)
      | (.error e, dict) => (.error e, ⟨T_DICT, .dict dict⟩)
  | self => (.error .undefined_behaviour, self)
/-- The list loop of `to_string`, returning also the elements after the calls. -/
def list_loop_st (dbl : double_t → String) (size : Nat) (i : Nat) :
    list_t → String → Except Fault String × list_t
  | [], os => (.ok os, [])
  | e :: rest, os =>
      match JObject.to_string_st dbl e with
      | (.ok s, e) =>
          let r :=
            if i ≠ size - 1 then list_loop_st dbl size (i + 1) rest (os ++ s ++ ",")
            else list_loop_st dbl size (i + 1) rest (os ++ s)
          (r.1, e :: r.2)
      | (.error f, e) => (.error f, e :: rest)
/-- The dict loop of `to_string`, returning also the entries after the calls. -/
def dict_loop_st (dbl : double_t → String) (first : Bool) :
    dict_t → String → Except Fault String × dict_t
  | [], os => (.ok os, [])
  | (k, v) :: rest, os =>
      match JObject.to_string_st dbl v with
      | (.ok s, v) =>
          let r := dict_loop_st dbl false rest
            ((if first then os else os ++ ",") ++ "\x22" ++ k ++ "\x22:" ++ s)
          (r.1, (k, v) :: r.2)
      | (.error f, v) => (.error f, (k, v) :: rest)
end

/-- The statement `x[key] = item`: keyed access followed by assignment through
the returned reference. -/
def JObject.assign (key : String) (item : JObject) (self : JObject) :
    Except Fault Unit × JObject :=
  match JObject.subscript key self with
  | (.ok _, self) => (.ok (), JObject.store key item self)
  | (.error e, self) => (.error e, self)

/-! ## Reachable values -/

/-- The characters that give a JSON text its structure. -/
def is_structural (c : Char) : Prop :=
  c = '[' ∨ c = ']' ∨ c = '{' ∨ c = '}' ∨ c = ','

instance (c : Char) : Decidable (is_structural c) := by
  unfold is_structural; infer_instance

/-- A text without structural characters. -/
def plain (s : String) : Prop :=
  ∀ c ∈ s.data, ¬ is_structural c

instance (s : String) : Decidable (plain s) := by
  unfold plain; infer_instance

/-- Square brackets and braces of a text are balanced and properly nested: a scan
that pushes the expected closer at every opener finds each closer on top of the
stack and ends with the stack empty. `stack` holds the closers still expected. -/
def brackets_match : List Char → List Char → Bool
  | [], stack => stack.isEmpty
  | c :: cs, stack =>
      if c = '[' then brackets_match cs (']' :: stack)
      else if c = '{' then brackets_match cs ('}' :: stack)
      else if c = ']' ∨ c = '}' then
        match stack with
        | top :: below => if top = c then brackets_match cs below else false
        | [] => false
      else brackets_match cs stack

/-- A comma right before a closing bracket or brace, or right after an opening one. -/
def bad_comma (a b : Char) : Prop :=
  (a = ',' ∧ (b = ']' ∨ b = '}')) ∨ ((a = '[' ∨ a = '{') ∧ b = ',')

/-- No two neighbouring characters of the text form a misplaced comma. -/
def no_bad_comma (cs : List Char) : Prop :=
  List.Chain' (fun a b => ¬ bad_comma a b) cs

/-- Texts joined by single commas. -/
def join_comma : List (List Char) → List Char
  | [] => []
  | [a] => a
  | a :: b :: rest => a ++ ',' :: join_comma (b :: rest)

/-- A text with `nl` pairs of square brackets and `nd` pairs of braces, balanced
and properly nested wherever it is embedded, without a misplaced comma inside,
that neither starts with a comma or a closer nor ends with a comma or an opener. -/
def nested_text (nl nd : Nat) (cs : List Char) : Prop :=
  (∀ rest stack, brackets_match (cs ++ rest) stack = brackets_match rest stack) ∧
  (cs.count '[' = nl ∧ cs.count ']' = nl ∧ cs.count '{' = nd ∧ cs.count '}' = nd) ∧
  no_bad_comma cs ∧
  (∃ a, cs.head? = some a ∧ a ≠ ',' ∧ a ≠ ']' ∧ a ≠ '}') ∧
  (∃ b, cs.getLast? = some b ∧ b ≠ ',' ∧ b ≠ '[' ∧ b ≠ '{')

mutual
/-- Number of nodes of kind `k` in a Value tree. -/
def JObject.count_kind (k : TYPE) : JObject → Nat
  | ⟨t, .list l⟩ => (if t = k then 1 else 0) + count_kind_elements k l
  | ⟨t, .dict d⟩ => (if t = k then 1 else 0) + count_kind_entries k d
  | ⟨t, .bool _⟩ => if t = k then 1 else 0
  | ⟨t, .int _⟩ => if t = k then 1 else 0
  | ⟨t, .double _⟩ => if t = k then 1 else 0
  | ⟨t, .str _⟩ => if t = k then 1 else 0
/-- Number of nodes of kind `k` in the elements of a sequence. -/
def count_kind_elements (k : TYPE) : list_t → Nat
  | [] => 0
  | e :: rest => e.count_kind k + count_kind_elements k rest
/-- Number of nodes of kind `k` in the values of a mapping. -/
def count_kind_entries (k : TYPE) : dict_t → Nat
  | [] => 0
  | (_, v) :: rest => v.count_kind k + count_kind_entries k rest
end

/-- Every STRING payload and every dict key of a Value tree satisfies `Q`. -/
def JObject.texts_satisfy (Q : String → Prop) (x : JObject) : Prop :=
  x.every (fun n => ∀ s, n = ⟨T_STR, .str s⟩ → Q s) Q

/-! ## The JSON grammar (RFC 8259) -/

/-- Insignificant whitespace: space, horizontal tab, line feed, carriage return. -/
def is_ws (c : Char) : Prop :=
  c = ' ' ∨ c = '\t' ∨ c = '\n' ∨ c = '\r'

instance (c : Char) : Decidable (is_ws c) := by
  unfold is_ws; infer_instance

/-- The production `ws`. -/
def json_ws (w : List Char) : Prop :=
  ∀ c ∈ w, is_ws c

/-- A decimal digit. -/
def is_digit (c : Char) : Prop :=
  '0' ≤ c ∧ c ≤ '9'

instance (c : Char) : Decidable (is_digit c) := by
  unfold is_digit; infer_instance

/-- A hexadecimal digit. -/
def is_hex (c : Char) : Prop :=
  is_digit c ∨ ('a' ≤ c ∧ c ≤ 'f') ∨ ('A' ≤ c ∧ c ≤ 'F')

/-- One or more digits. -/
def json_digits (ds : List Char) : Prop :=
  ds ≠ [] ∧ ∀ c ∈ ds, is_digit c

/-- The production `int`: a single zero, or a digit from 1 to 9 followed by digits. -/
def json_int (cs : List Char) : Prop :=
  cs = ['0'] ∨ ∃ d ds, cs = d :: ds ∧ ('1' ≤ d ∧ d ≤ '9') ∧ ∀ c ∈ ds, is_digit c

/-- The optional production `frac`: a decimal point followed by digits. -/
def json_frac (cs : List Char) : Prop :=
  cs = [] ∨ ∃ ds, cs = '.' :: ds ∧ json_digits ds

/-- The optional production `exp`: `e` or `E`, an optional sign, digits. -/
def json_exp (cs : List Char) : Prop :=
  cs = [] ∨ ∃ e sign ds, cs = e :: (sign ++ ds) ∧ (e = 'e' ∨ e = 'E') ∧
    (sign = [] ∨ sign = ['+'] ∨ sign = ['-']) ∧ json_digits ds

/-- The production `number`: an optional minus, `int`, optional `frac` and `exp`. -/
def json_number (cs : List Char) : Prop :=
  ∃ minus int frac exp, cs = minus ++ int ++ frac ++ exp ∧
    (minus = [] ∨ minus = ['-']) ∧ json_int int ∧ json_frac frac ∧ json_exp exp

/-- A character that may stand in a JSON string as it is. -/
def unescaped_char (c : Char) : Prop :=
  32 ≤ c.toNat ∧ c ≠ '"' ∧ c ≠ '\\'

/-- The production `char`: an unescaped character, a two-character escape, or
`\u` followed by four hexadecimal digits. -/
def json_char (cs : List Char) : Prop :=
  (∃ c, cs = [c] ∧ unescaped_char c) ∨
  (∃ c, cs = ['\\', c] ∧ (c = '"' ∨ c = '\\' ∨ c = '/' ∨ c = 'b' ∨ c = 'f' ∨ c = 'n' ∨
    c = 'r' ∨ c = 't')) ∨
  (∃ h1 h2 h3 h4, cs = ['\\', 'u', h1, h2, h3, h4] ∧ is_hex h1 ∧ is_hex h2 ∧ is_hex h3 ∧
    is_hex h4)

/-- The production `string`: characters between two double quotes. -/
def json_string (cs : List Char) : Prop :=
  ∃ items : List (List Char), (∀ it ∈ items, json_char it) ∧
    cs = '"' :: (items.flatten ++ ['"'])

/-- The name of an object member, with the whitespace allowed around it. -/
def json_key (cs : List Char) : Prop :=
  ∃ w1 s w2, json_ws w1 ∧ json_string s ∧ json_ws w2 ∧ cs = w1 ++ s ++ w2

/-- The JSON texts: a value with optional whitespace around it, where a value is
a literal name, a number, a string, an array of JSON texts separated by commas, or
an object of members `name:text` separated by commas. -/
inductive json_text : List Char → Prop
  | lit_null : json_text ['n', 'u', 'l', 'l']
  | lit_true : json_text ['t', 'r', 'u', 'e']
  | lit_false : json_text ['f', 'a', 'l', 's', 'e']
  | number (cs : List Char) : json_number cs → json_text cs
  | string (cs : List Char) : json_string cs → json_text cs
  | array_empty (w : List Char) : json_ws w → json_text ('[' :: (w ++ [']']))
  | array (items : List (List Char)) : items ≠ [] → (∀ t ∈ items, json_text t) →
      json_text ('[' :: (join_comma items ++ [']']))
  | object_empty (w : List Char) : json_ws w → json_text ('{' :: (w ++ ['}']))
  | object (members : List (List Char × List Char)) : members ≠ [] →
      (∀ m ∈ members, json_key m.1) → (∀ m ∈ members, json_text m.2) →
      json_text ('{' :: (join_comma (members.map (fun m => m.1 ++ ':' :: m.2)) ++ ['}']))
  | pad (w1 cs w2 : List Char) : json_ws w1 → json_ws w2 → json_text cs →
      json_text (w1 ++ cs ++ w2)

/-- A text in which no character needs escaping inside a JSON string: no double
quote, no backslash, no control character. -/
def unescaped (s : String) : Prop :=
  ∀ c ∈ s.data, unescaped_char c

instance (s : String) : Decidable (unescaped s) := by
  unfold unescaped unescaped_char; infer_instance

/-- Every DOUBLE payload of a Value tree satisfies `Q`. -/
def JObject.doubles_satisfy (Q : double_t → Prop) (x : JObject) : Prop :=
  x.every (fun n => ∀ f, n = ⟨T_DOUBLE, .double f⟩ → Q f) (fun _ => True)

/-- Every STRING payload of a Value tree satisfies `Q`; dict keys are not looked at. -/
def JObject.payloads_satisfy (Q : String → Prop) (x : JObject) : Prop :=
  x.every (fun n => ∀ s, n = ⟨T_STR, .str s⟩ → Q s) (fun _ => True)

/-! ## Reading a serialized text back -/

/-- A text without a double quote. -/
def quote_free (s : String) : Prop :=
  '"' ∉ s.data

instance (s : String) : Decidable (quote_free s) := by
  unfold quote_free; infer_instance

/-- The kind of Value whose text can start with the character `c`, DOUBLE left
aside. -/
def kind_of_lead (c : Char) : Option TYPE :=
  if c = 'n' then some T_NULL
  else if c = 't' ∨ c = 'f' then some T_BOOL
  else if c = '-' ∨ is_digit c then some T_INT
  else if c = '"' then some T_STR
  else if c = '[' then some T_LIST
  else if c = '{' then some T_DICT
  else none

/-- What can follow the text of a Value inside the text of a list or dict, or at
the end: nothing, or a text starting with a comma or a closer. -/
def delimited (r : List Char) : Prop :=
  r = [] ∨ ∃ c r', r = c :: r' ∧ (c = ',' ∨ c = ']' ∨ c = '}')

/-- What follows the first item in the text of a list or dict: each further item
after a comma, then the closer `close` and the text `r` after the container. -/
def rest_text (close : Char) : List (List Char) → List Char → List Char
  | [], r => close :: r
  | s :: ss, r => ',' :: (s ++ rest_text close ss r)

/-- A Value tree whose text can be read back: it satisfies the class invariant,
holds no DOUBLE node, and no STRING payload or dict key of it holds a double
quote. -/
def JObject.readable (x : JObject) : Prop :=
  x.invariant ∧ x.texts_satisfy quote_free ∧ x.doubles_satisfy (fun _ => False)

/-! ## The stream rendering of a double -/

/-- Sign bit of an IEEE-754 binary64 bit pattern. -/
def double_t.sign (f : double_t) : Bool :=
  f.bits / 2 ^ 63 % 2 = 1

/-- Biased exponent field of a binary64 bit pattern. -/
def double_t.exponent (f : double_t) : Nat :=
  f.bits / 2 ^ 52 % 2 ^ 11

/-- Fraction field of a binary64 bit pattern. -/
def double_t.fraction (f : double_t) : Nat :=
  f.bits % 2 ^ 52

/-- A double that is neither an infinity nor a NaN. -/
def double_t.finite (f : double_t) : Prop :=
  f.exponent ≠ 2047

instance (f : double_t) : Decidable f.finite := by
  unfold double_t.finite; infer_instance

/-- Numerator of the magnitude of a finite double, as an exact fraction. -/
def double_t.num (f : double_t) : Nat :=
  (if f.exponent = 0 then f.fraction else 2 ^ 52 + f.fraction) * 2 ^ (max f.exponent 1 - 1075)

/-- Denominator of the magnitude of a finite double, as an exact fraction. -/
def double_t.den (f : double_t) : Nat :=
  2 ^ (1075 - max f.exponent 1)

/-- The decimal exponent of the positive fraction `num / den`: the `X` with
`10 ^ X ≤ num / den < 10 ^ (X + 1)`, from the number of digits of the integer part
when there is one and of the reciprocal otherwise. -/
def decimal_exponent (num den : Nat) : Int :=
  if den ≤ num then ((Nat.toDigits 10 (num / den)).length : Int) - 1
  else - ((Nat.toDigits 10 ((den - 1) / num)).length : Int)

/-- The fraction `a / b` rounded to the nearest integer, ties to even. -/
def round_half_even (a b : Nat) : Nat :=
  if b < 2 * (a % b) ∨ (2 * (a % b) = b ∧ a / b % 2 = 1) then a / b + 1 else a / b

/-- The six significant decimal digits of `num / den`, as a number: the fraction
divided by `10 ^ (X - 5)` and rounded. -/
def six_digits (num den : Nat) (X : Int) : Nat :=
  if X ≤ 5 then round_half_even (num * 10 ^ (5 - X).toNat) den
  else round_half_even num (den * 10 ^ (X - 5).toNat)

/-- The decimal digits of `n`, with zeros in front up to `width` characters. -/
def pad_digits (width n : Nat) : List Char :=
  List.replicate (width - (Nat.toDigits 10 n).length) '0' ++ Nat.toDigits 10 n

/-- Digits without their trailing zeros. -/
def strip_zeros (ds : List Char) : List Char :=
  (ds.reverse.dropWhile (fun c => c = '0')).reverse

/-- The fractional part of a `%g` text: nothing when only zeros follow the decimal
point, else the point and the digits up to the last one that is not zero. -/
def frac_text (ds : List Char) : List Char :=
  if strip_zeros ds = [] then [] else '.' :: strip_zeros ds

/-- The exponent part of a `%g` text: `e`, a sign, at least two digits. -/
def exp_text (X : Int) : List Char :=
  'e' :: (if X < 0 then '-' else '+') :: pad_digits 2 X.natAbs

/-- The conversion `%g` with precision 6 of the six digits `D` at decimal exponent
`X`: scientific style when `X < -4` or `X ≥ 6`, fixed style otherwise, trailing
zeros removed. -/
def g_text (D : Nat) (X : Int) : List Char :=
  if X < -4 ∨ 6 ≤ X then
    Nat.toDigits 10 (D / 10 ^ 5) ++ frac_text (pad_digits 5 (D % 10 ^ 5)) ++ exp_text X
  else if 0 ≤ X then
    Nat.toDigits 10 (D / 10 ^ (5 - X).toNat)
      ++ frac_text (pad_digits (5 - X).toNat (D % 10 ^ (5 - X).toNat))
  else
    '0' :: frac_text (List.replicate (-X - 1).toNat '0' ++ pad_digits 6 D)

/-- The magnitude of a finite double under `%g` with precision 6: the six digits
are rounded at the decimal exponent of the value, which moves up by one when the
rounding carries into a seventh digit. -/
def finite_text (num den : Nat) : List Char :=
  if num = 0 then ['0']
  else
    let X := decimal_exponent num den
    let D := six_digits num den X
    if D = 10 ^ 6 then g_text (10 ^ 5) (X + 1) else g_text D X

/-- Rendering of `os << double` on a stream in its default state (`%g`, precision
6, classic locale) for IEEE-754 binary64: a minus when the sign bit is set, then
`inf` for an infinity, `nan` for a NaN, and the `%g` text of the magnitude. -/
def os_double (f : double_t) : String :=
  String.mk ((if f.sign then ['-'] else []) ++
    (if f.exponent = 2047 then (if f.fraction = 0 then ['i', 'n', 'f'] else ['n', 'a', 'n'])
     else finite_text f.num f.den))

/-! ## Basic facts about the accessors -/

theorem Value_list (es : list_t) :
    JObject.Value .list_t ⟨T_LIST, .list es⟩ = (.ok es, ⟨T_LIST, .list es⟩) := by
  simp [JObject.Value, JObject.value, JObject.m_type, JObject.m_value, get_if, deref, VType.tag]

theorem Value_dict (d : dict_t) :
    JObject.Value .dict_t ⟨T_DICT, .dict d⟩ = (.ok d, ⟨T_DICT, .dict d⟩) := by
  simp [JObject.Value, JObject.value, JObject.m_type, JObject.m_value, get_if, deref, VType.tag]

theorem consistent_list (x : JObject) (h : x.consistent) (ht : x.m_type = T_LIST) :
    ∃ es, x = ⟨T_LIST, .list es⟩ := by
  obtain ⟨t, v⟩ := x
  cases t <;> cases v <;> simp_all [JObject.consistent, JObject.m_type]

theorem consistent_dict (x : JObject) (h : x.consistent) (ht : x.m_type = T_DICT) :
    ∃ d, x = ⟨T_DICT, .dict d⟩ := by
  obtain ⟨t, v⟩ := x
  cases t <;> cases v <;> simp_all [JObject.consistent, JObject.m_type]

/-! ## Decimal rendering -/

theorem digitChar_lt_ten (m : Nat) (h : m < 10) :
    ('0' ≤ Nat.digitChar m ∧ Nat.digitChar m ≤ '9') ∧ (Nat.digitChar m).toNat - 48 = m ∧
      (Nat.digitChar m = '0' → m = 0) := by
  interval_cases m <;> decide

theorem decimal_value_append (ds : List Char) (c : Char) :
    decimal_value (ds ++ [c]) = 10 * decimal_value ds + (c.toNat - 48) := by
  simp [decimal_value, List.foldl_append]

theorem digit_run_single (n : Nat) (h : n < 10) : digit_run n [Nat.digitChar n] := by
  have hd := digitChar_lt_ten n h
  refine ⟨by simp [decimal_value, hd.2.1], by simp, ?_, ?_⟩
  · intro h0
    simp only [List.head?_cons, Option.some.injEq] at h0
    rw [h0]
  · intro c hc
    rw [List.mem_singleton.1 hc]
    exact hd.1

theorem digit_run_snoc (q r : Nat) (ds : List Char) (hq : 0 < q) (hr : r < 10)
    (h : digit_run q ds) : digit_run (10 * q + r) (ds ++ [Nat.digitChar r]) := by
  obtain ⟨hval, hne, hhead, hdig⟩ := h
  have hd := digitChar_lt_ten r hr
  refine ⟨by rw [decimal_value_append, hval, hd.2.1], by simp, ?_, ?_⟩
  · intro h0
    exfalso
    cases ds with
    | nil => exact hne rfl
    | cons a t =>
      simp only [List.cons_append, List.head?_cons, Option.some.injEq] at h0
      have hz := hhead (by simp [h0])
      rw [hz] at hval
      simp [decimal_value] at hval
      omega
  · intro c hc
    rcases List.mem_append.1 hc with hc | hc
    · exact hdig c hc
    · rw [List.mem_singleton.1 hc]
      exact hd.1

/-- With fuel above `n` the digit loop of `Nat.toDigits` puts the canonical digit
run of `n` in front of what it was given. -/
theorem toDigitsCore_digit_run (n : Nat) : ∀ (fuel : Nat) (tail : List Char), n < fuel →
    ∃ ds, digit_run n ds ∧ Nat.toDigitsCore 10 fuel n tail = ds ++ tail := by
  induction n using Nat.strong_induction_on with
  | _ n ih =>
    intro fuel tail hfuel
    cases fuel with
    | zero => omega
    | succ fuel =>
      by_cases hq : n / 10 = 0
      · have hn : n < 10 := by omega
        refine ⟨[Nat.digitChar n], digit_run_single n hn, ?_⟩
        simp [Nat.toDigitsCore, hq, Nat.mod_eq_of_lt hn]
      · obtain ⟨ds, hrun, heq⟩ := ih (n / 10) (by omega) fuel (Nat.digitChar (n % 10) :: tail)
          (by omega)
        refine ⟨ds ++ [Nat.digitChar (n % 10)], ?_, ?_⟩
        · have := digit_run_snoc (n / 10) (n % 10) ds (by omega) (Nat.mod_lt _ (by norm_num)) hrun
          rwa [Nat.div_add_mod] at this
        · simp [Nat.toDigitsCore, hq, heq]

theorem os_int_canonical (i : Int) : is_canonical_decimal i (os_int i) := by
  obtain ⟨ds, hrun, heq⟩ := toDigitsCore_digit_run i.natAbs (i.natAbs + 1) [] (by omega)
  refine ⟨ds, hrun, ?_⟩
  simp only [List.append_nil] at heq
  by_cases hi : i < 0 <;> simp [os_int, hi, Nat.toDigits, heq]

/-! ## Serialization of scalars -/

/-- C3: `to_string` of a NULL Value, whatever its payload and in particular of a
default-constructed Value, is `null`; of a BOOL Value holding `b` it is `true` when
`b` holds and `false` otherwise; of an INT Value holding a 32-bit signed integer `i`
it is the canonical decimal text of `i`. -/
theorem C3_to_string_scalars (dbl : double_t → String) :
    (∀ p : value_t, JObject.to_string dbl ⟨T_NULL, p⟩ = .ok "null") ∧
    JObject.to_string dbl JObject.new = .ok "null" ∧
    (∀ b : bool_t, JObject.to_string dbl (JObject.of_bool b)
      = .ok (if b then "true" else "false")) ∧
    (∀ i : int_t, -2147483648 ≤ i → i ≤ 2147483647 →
      ∃ s, JObject.to_string dbl (JObject.of_int i) = .ok s ∧ is_canonical_decimal i s) := by
  refine ⟨fun p => ?_, rfl, fun b => rfl, fun i _ _ => ⟨os_int i, rfl, os_int_canonical i⟩⟩
  cases p <;> rfl

theorem C3_to_string_scalars_witness :
    ∃ s, JObject.to_string (fun _ => "") (JObject.of_int (-2147483648)) = .ok s ∧
      is_canonical_decimal (-2147483648) s :=
  (C3_to_string_scalars (fun _ => "")).2.2.2 (-2147483648) (by decide) (by decide)

/-- C4: `to_string` of the STRING Value holding `s` is a double quote, then the
characters of `s` unchanged, then a double quote: nothing is escaped, dropped or
altered, and the output is two characters longer than `s`. -/
theorem C4_to_string_str_raw (dbl : double_t → String) (s : str_t) :
    JObject.of_str s = ⟨T_STR, .str s⟩ ∧
    (∃ out : String, JObject.to_string dbl ⟨T_STR, .str s⟩ = .ok out ∧
      out.data = Char.ofNat 34 :: (s.data ++ [Char.ofNat 34]) ∧
      out.length = s.length + 2) ∧
    JObject.to_string dbl (JObject.of_str "a\x22b\x5c\x0a") = .ok "\x22a\x22b\x5c\x0a\x22" := by
  refine ⟨rfl, ⟨"\x22" ++ s ++ "\x22", rfl, ?_, ?_⟩, rfl⟩
  · simp [String.data_append]
  · show ("\x22" ++ s ++ "\x22").data.length = s.data.length + 2
    simp [String.data_append]

/-! ## The map container -/

theorem map_find_subscript_self (k : String) (dflt : JObject) (d : dict_t) :
    map_find k (map_subscript k dflt d).1 = some (map_subscript k dflt d).2 := by
  induction d with
  | nil => simp [map_subscript, map_find]
  | cons kv d ih =>
    obtain ⟨k0, v0⟩ := kv
    simp only [map_subscript]
    split_ifs with h1 h2
    · simp [map_find]
    · simp [map_find, ne_of_lt h2, ih]
    · have : k0 = k := le_antisymm (not_lt.1 h1) (not_lt.1 h2)
      simp [map_find, this]

theorem map_find_subscript_other (k k' : String) (dflt : JObject) (d : dict_t) (h : k' ≠ k) :
    map_find k' (map_subscript k dflt d).1 = map_find k' d := by
  induction d with
  | nil => simp [map_subscript, map_find, h.symm]
  | cons kv d ih =>
    obtain ⟨k0, v0⟩ := kv
    simp only [map_subscript]
    split_ifs with h1 h2
    · simp [map_find, h.symm]
    · simp [map_find, ih]
    · rfl

theorem map_subscript_absent (k : String) (dflt : JObject) (d : dict_t)
    (h : map_find k d = none) : (map_subscript k dflt d).2 = dflt := by
  induction d with
  | nil => rfl
  | cons kv d ih =>
    obtain ⟨k0, v0⟩ := kv
    simp only [map_find] at h
    split_ifs at h with h0
    simp only [map_subscript]
    split_ifs with h1 h2
    · rfl
    · exact ih h
    · exact absurd (le_antisymm (not_lt.1 h1) (not_lt.1 h2)) h0

theorem map_subscript_mem (k : String) (dflt : JObject) (d : dict_t) (b : String × JObject)
    (hb : b ∈ (map_subscript k dflt d).1) : b.1 = k ∨ b ∈ d := by
  induction d with
  | nil =>
    simp only [map_subscript, List.mem_singleton] at hb
    left; rw [hb]
  | cons kv d ih =>
    obtain ⟨k0, v0⟩ := kv
    simp only [map_subscript] at hb
    split_ifs at hb with h1 h2
    · rcases List.mem_cons.1 hb with hb | hb
      · left; rw [hb]
      · right; exact hb
    · rcases List.mem_cons.1 hb with hb | hb
      · right; rw [hb]; exact List.mem_cons_self _ _
      · rcases ih hb with h | h
        · left; exact h
        · right; exact List.mem_cons_of_mem _ h
    · right; exact hb

theorem map_subscript_wf (k : String) (dflt : JObject) (d : dict_t) (hwf : dict_wf d) :
    dict_wf (map_subscript k dflt d).1 := by
  induction d with
  | nil => simp [map_subscript, dict_wf]
  | cons kv d ih =>
    obtain ⟨k0, v0⟩ := kv
    have hwf' := List.pairwise_cons.1 hwf
    simp only [map_subscript]
    split_ifs with h1 h2
    · refine List.pairwise_cons.2 ⟨?_, hwf⟩
      intro b hb
      rcases List.mem_cons.1 hb with hb | hb
      · rw [hb]; exact h1
      · exact lt_trans h1 (hwf'.1 b hb)
    · refine List.pairwise_cons.2 ⟨?_, ih hwf'.2⟩
      intro b hb
      rcases map_subscript_mem k dflt d b hb with h | h
      · rw [h]; exact h2
      · exact hwf'.1 b h
    · exact hwf

theorem map_subscript_present (k : String) (dflt v : JObject) (d : dict_t) (hwf : dict_wf d)
    (h : map_find k d = some v) : map_subscript k dflt d = (d, v) := by
  induction d with
  | nil => simp [map_find] at h
  | cons kv d ih =>
    obtain ⟨k0, v0⟩ := kv
    have hwf' := List.pairwise_cons.1 hwf
    simp only [map_find] at h
    simp only [map_subscript]
    split_ifs at h with h0
    · subst h0
      simp only [Option.some.injEq] at h
      simp [h]
    · have hlt : k0 < k := by
        rcases lt_trichotomy k0 k with h3 | h3 | h3
        · exact h3
        · exact absurd h3 h0
        · exfalso
          have hmem : ∀ (l : dict_t), map_find k l = some v → ∃ b ∈ l, b.1 = k := by
            intro l
            induction l with
            | nil => intro hl; simp [map_find] at hl
            | cons a l ihl =>
              intro hl
              obtain ⟨ka, va⟩ := a
              simp only [map_find] at hl
              split_ifs at hl with hk
              · exact ⟨(ka, va), List.mem_cons_self _ _, hk⟩
              · obtain ⟨b, hb, hbk⟩ := ihl hl
                exact ⟨b, List.mem_cons_of_mem _ hb, hbk⟩
          obtain ⟨b, hb, hbk⟩ := hmem d h
          have := hwf'.1 b hb
          rw [hbk] at this
          exact lt_asymm h3 this
      simp [not_lt_of_lt hlt, hlt, ih hwf'.2 h]

theorem map_store_keys (k : String) (v : JObject) (d : dict_t) :
    (map_store k v d).map Prod.fst = d.map Prod.fst := by
  induction d with
  | nil => rfl
  | cons kv d ih =>
    obtain ⟨k0, v0⟩ := kv
    simp only [map_store]
    split_ifs with h
    · simp
    · simp [ih]

theorem dict_wf_iff_keys (d : dict_t) :
    dict_wf d ↔ List.Pairwise (fun a b : String => a < b) (d.map Prod.fst) := by
  simp [dict_wf, List.pairwise_map]

theorem map_store_wf (k : String) (v : JObject) (d : dict_t) (hwf : dict_wf d) :
    dict_wf (map_store k v d) := by
  rw [dict_wf_iff_keys] at hwf ⊢
  rw [map_store_keys]; exact hwf

theorem map_find_store_self (k : String) (v : JObject) (d : dict_t)
    (h : map_find k d ≠ none) : map_find k (map_store k v d) = some v := by
  induction d with
  | nil => simp [map_find] at h
  | cons kv d ih =>
    obtain ⟨k0, v0⟩ := kv
    simp only [map_find] at h
    simp only [map_store]
    split_ifs at h ⊢ with h0
    · simp [map_find, h0]
    · simp [map_find, h0, ih h]

theorem map_find_store_other (k k' : String) (v : JObject) (d : dict_t) (h : k' ≠ k) :
    map_find k' (map_store k v d) = map_find k' d := by
  induction d with
  | nil => rfl
  | cons kv d ih =>
    obtain ⟨k0, v0⟩ := kv
    simp only [map_store]
    split_ifs with h0
    · subst h0; simp [map_find, h.symm]
    · simp [map_find, ih]

/-- Assigning `m[k] = v` for an absent key adds the entry `(k, v)`. -/
theorem map_assign_perm (k : String) (dflt v : JObject) (d : dict_t)
    (h : map_find k d = none) :
    (map_store k v (map_subscript k dflt d).1).Perm ((k, v) :: d) := by
  induction d with
  | nil => simp [map_subscript, map_store]
  | cons kv d ih =>
    obtain ⟨k0, v0⟩ := kv
    simp only [map_find] at h
    split_ifs at h with h0
    simp only [map_subscript]
    split_ifs with h1 h2
    · simp [map_store]
    · simp only [map_store, if_neg h0]
      exact ((ih h).cons (k0, v0)).trans (List.Perm.swap _ _ _)
    · exact absurd (le_antisymm (not_lt.1 h1) (not_lt.1 h2)) h0

theorem dict_from_aux (dflt : JObject) (es : List (String × JObject)) :
    ∀ acc : dict_t, dict_wf acc → (es.map Prod.fst).Nodup →
      (∀ kv ∈ es, map_find kv.1 acc = none) →
      dict_wf (es.foldl (fun m kv => map_store kv.1 kv.2 (map_subscript kv.1 dflt m).1) acc) ∧
      (es.foldl (fun m kv => map_store kv.1 kv.2 (map_subscript kv.1 dflt m).1) acc).Perm
        (es ++ acc) := by
  induction es with
  | nil => intro acc hwf _ _; exact ⟨hwf, List.Perm.refl _⟩
  | cons kv es ih =>
    intro acc hwf hnd habs
    obtain ⟨k, v⟩ := kv
    simp only [List.map_cons, List.nodup_cons] at hnd
    have hk : map_find k acc = none := habs (k, v) (List.mem_cons_self _ _)
    have hwf' : dict_wf (map_store k v (map_subscript k dflt acc).1) :=
      map_store_wf k v _ (map_subscript_wf k dflt acc hwf)
    have habs' : ∀ kv' ∈ es, map_find kv'.1 (map_store k v (map_subscript k dflt acc).1) = none := by
      intro kv' hkv'
      have hne : kv'.1 ≠ k := by
        intro e
        exact hnd.1 (e ▸ List.mem_map_of_mem Prod.fst hkv')
      rw [map_find_store_other k kv'.1 v _ hne, map_find_subscript_other k kv'.1 dflt acc hne]
      exact habs kv' (List.mem_cons_of_mem _ hkv')
    obtain ⟨h1, h2⟩ := ih _ hwf' hnd.2 habs'
    refine ⟨h1, ?_⟩
    simp only [List.foldl_cons]
    refine h2.trans ?_
    refine ((map_assign_perm k dflt v acc hk).append_left es).trans ?_
    simp only [List.cons_append]
    exact List.perm_middle

/-- A map built by assignments from entries with distinct keys holds those entries
in strictly ascending key order, whatever the order of the assignments. -/
theorem dict_from_sorted (dflt : JObject) (es ps : List (String × JObject))
    (hnd : (es.map Prod.fst).Nodup) (hperm : ps.Perm es) (hps : dict_wf ps) :
    dict_from es dflt = ps := by
  obtain ⟨h1, h2⟩ := dict_from_aux dflt es [] List.Pairwise.nil hnd (fun _ _ => rfl)
  simp only [List.append_nil] at h2
  haveI : IsAntisymm (String × JObject) (fun a b => a.1 < b.1) :=
    ⟨fun a b hab hba => absurd hab (lt_asymm hba)⟩
  exact List.eq_of_perm_of_sorted (h2.trans hperm.symm) h1 hps

/-! ## Serialization of lists -/

theorem intercalate_go_append (sep : String) : ∀ (l : List String) (x acc : String),
    String.intercalate.go (x ++ acc) sep l = x ++ String.intercalate.go acc sep l := by
  intro l
  induction l with
  | nil => intro x acc; rfl
  | cons a l ih =>
    intro x acc
    simp only [String.intercalate.go]
    rw [← ih x (acc ++ sep ++ a)]
    simp only [String.append_assoc]

theorem intercalate_cons_cons (sep a b : String) (rest : List String) :
    sep.intercalate (a :: b :: rest) = a ++ sep ++ sep.intercalate (b :: rest) := by
  simp only [String.intercalate, String.intercalate.go]
  exact intercalate_go_append sep rest (a ++ sep) b

/-- The list loop started at index `i` with `size - i` elements left writes the
texts of the elements separated by single commas. -/
theorem list_loop_spec (dbl : double_t → String) (es : list_t) (ss : List String)
    (h : List.Forall₂ (fun e s => JObject.to_string dbl e = .ok s) es ss) :
    ∀ (size i : Nat) (os : String), size = i + es.length →
      list_loop dbl size i es os = .ok (os ++ ",".intercalate ss) := by
  induction h with
  | nil =>
    intro size i os _
    simp [list_loop, String.intercalate]
  | @cons e s es ss hes hrest ih =>
    intro size i os hsize
    rw [list_loop, hes]
    cases hrest with
    | nil =>
      have hi : i = size - 1 := by simp at hsize; omega
      simp [hi, list_loop, String.intercalate, String.intercalate.go]
    | @cons e' s' es' ss' he' hrest' =>
      have hi : i ≠ size - 1 := by simp at hsize; omega
      simp only [hi, ne_eq, not_false_eq_true, if_true]
      rw [ih size (i + 1) (os ++ s ++ ",") (by simp at hsize ⊢; omega), intercalate_cons_cons]
      simp only [String.append_assoc]

theorem to_string_list_eq (dbl : double_t → String) (es : list_t) (ss : List String)
    (h : List.Forall₂ (fun e s => JObject.to_string dbl e = .ok s) es ss) :
    JObject.to_string dbl ⟨T_LIST, .list es⟩ = .ok ("[" ++ ",".intercalate ss ++ "]") := by
  rw [JObject.to_string, list_loop_spec dbl es ss h es.length 0 "[" (by simp)]

/-! ## Serialization of dicts -/

/-- The dict loop past the first entry writes a comma before each entry. -/
theorem dict_loop_rest (dbl : double_t → String) (d : dict_t) (ss : List String)
    (h : List.Forall₂ (fun kv s => JObject.to_string dbl kv.2 = .ok s) d ss) :
    ∀ os : String, dict_loop dbl false d os
      = .ok (String.intercalate.go os "," (List.zipWith (fun kv s => entry_text kv.1 s) d ss)) := by
  induction h with
  | nil => intro os; simp [dict_loop, String.intercalate.go]
  | @cons kv s d ss hkv _ ih =>
    intro os
    obtain ⟨k, v⟩ := kv
    simp only at hkv
    rw [dict_loop, hkv]
    simp only [ih, List.zipWith_cons_cons, String.intercalate.go, entry_text, Bool.false_eq_true,
      if_false, String.append_assoc]

/-- The dict loop from `dict.begin()` writes the entry texts separated by single commas. -/
theorem dict_loop_spec (dbl : double_t → String) (d : dict_t) (ss : List String)
    (h : List.Forall₂ (fun kv s => JObject.to_string dbl kv.2 = .ok s) d ss) (os : String) :
    dict_loop dbl true d os
      = .ok (os ++ ",".intercalate (List.zipWith (fun kv s => entry_text kv.1 s) d ss)) := by
  cases h with
  | nil => simp [dict_loop, String.intercalate]
  | @cons kv s d ss hkv hrest =>
    obtain ⟨k, v⟩ := kv
    simp only at hkv
    simp only [dict_loop, hkv, dict_loop_rest dbl d ss hrest, List.zipWith_cons_cons,
      String.intercalate, if_true]
    rw [← intercalate_go_append]
    simp only [entry_text, String.append_assoc]

theorem to_string_dict_eq (dbl : double_t → String) (d : dict_t) (ss : List String)
    (h : List.Forall₂ (fun kv s => JObject.to_string dbl kv.2 = .ok s) d ss) :
    JObject.to_string dbl ⟨T_DICT, .dict d⟩
      = .ok ("\x7b" ++ ",".intercalate (List.zipWith (fun kv s => entry_text kv.1 s) d ss)
          ++ "\x7d") := by
  rw [JObject.to_string, dict_loop_spec dbl d ss h]

/-! ## Serialization returns on every consistent tree -/


theorem all_list_iff (l : list_t) :
    all_list_consistent l ↔ ∀ e ∈ l, e.deep_consistent := by
  induction l with
  | nil => simp [all_list_consistent]
  | cons e l ih => simp [all_list_consistent, ih]

theorem all_dict_iff (d : dict_t) :
    all_dict_consistent d ↔ ∀ kv ∈ d, kv.2.deep_consistent := by
  induction d with
  | nil => simp [all_dict_consistent]
  | cons kv d ih =>
    obtain ⟨k, v⟩ := kv
    simp [all_dict_consistent, ih]

theorem forall₂_of_forall_exists {α β : Type} (R : α → β → Prop) (l : List α)
    (h : ∀ a ∈ l, ∃ b, R a b) : ∃ bs, List.Forall₂ R l bs := by
  induction l with
  | nil => exact ⟨[], List.Forall₂.nil⟩
  | cons a l ih =>
    obtain ⟨b, hb⟩ := h a (List.mem_cons_self a l)
    obtain ⟨bs, hbs⟩ := ih (fun a' ha' => h a' (List.mem_cons_of_mem a ha'))
    exact ⟨b :: bs, List.Forall₂.cons hb hbs⟩

theorem to_string_total_aux (dbl : double_t → String) : ∀ (n : Nat) (x : JObject),
    sizeOf x ≤ n → x.deep_consistent → ∃ s, JObject.to_string dbl x = .ok s := by
  intro n
  induction n with
  | zero =>
    intro x hx _
    obtain ⟨t, v⟩ := x
    simp at hx
  | succ n ih =>
    intro x hx hc
    obtain ⟨t, v⟩ := x
    cases t <;> cases v <;>
      first
        | exact ⟨_, rfl⟩
        | (simp [JObject.deep_consistent] at hc; done)
        | skip
    · rename_i l
      rw [JObject.deep_consistent, all_list_iff] at hc
      have hall : ∀ e ∈ l, ∃ s, JObject.to_string dbl e = .ok s := by
        intro e he
        refine ih e ?_ (hc e he)
        have := List.sizeOf_lt_of_mem he
        simp at hx
        omega
      obtain ⟨ss, hss⟩ := forall₂_of_forall_exists _ l hall
      exact ⟨_, to_string_list_eq dbl l ss hss⟩
    · rename_i d
      rw [JObject.deep_consistent, all_dict_iff] at hc
      have hall : ∀ kv ∈ d, ∃ s, JObject.to_string dbl kv.2 = .ok s := by
        intro kv he
        refine ih kv.2 ?_ (hc kv he)
        have := List.sizeOf_lt_of_mem he
        obtain ⟨k, v⟩ := kv
        simp at hx this ⊢
        omega
      obtain ⟨ss, hss⟩ := forall₂_of_forall_exists _ d hall
      exact ⟨_, to_string_dict_eq dbl d ss hss⟩

/-- On a Value tree that satisfies the class invariant at every node `to_string`
returns a text. -/
theorem to_string_total (dbl : double_t → String) (x : JObject) (h : x.deep_consistent) :
    ∃ s, JObject.to_string dbl x = .ok s :=
  to_string_total_aux dbl (sizeOf x) x (Nat.le_refl _) h

/-- C1: `to_string` of the LIST Value holding `e0, ..., e(n-1)` returns `[`, then the
texts `to_string(e0), ..., to_string(e(n-1))` in sequence order joined by single
commas, then `]`. The empty list gives `[]` and the integer list 1, 2, 3 gives
`[1,2,3]`. -/
theorem C1_to_string_list (dbl : double_t → String) :
    (∀ es : list_t, (∀ e ∈ es, e.deep_consistent) →
      ∃ ss : List String,
        List.Forall₂ (fun e s => JObject.to_string dbl e = .ok s) es ss ∧
        JObject.to_string dbl ⟨T_LIST, .list es⟩
          = .ok ("[" ++ ",".intercalate ss ++ "]")) ∧
    JObject.to_string dbl (JObject.of_list []) = .ok "[]" ∧
    JObject.to_string dbl
      (JObject.of_list [JObject.of_int 1, JObject.of_int 2, JObject.of_int 3])
        = .ok "[1,2,3]" := by
  refine ⟨fun es h => ?_, rfl, rfl⟩
  obtain ⟨ss, hss⟩ := forall₂_of_forall_exists _ es (fun e he => to_string_total dbl e (h e he))
  exact ⟨ss, hss, to_string_list_eq dbl es ss hss⟩

theorem C1_to_string_list_witness :
    ∃ ss : List String,
      List.Forall₂ (fun e s => JObject.to_string (fun _ => "") e = .ok s)
        [JObject.of_bool true, JObject.new, JObject.of_list []] ss ∧
      JObject.to_string (fun _ => "")
        ⟨T_LIST, .list [JObject.of_bool true, JObject.new, JObject.of_list []]⟩
          = .ok ("[" ++ ",".intercalate ss ++ "]") :=
  (C1_to_string_list (fun _ => "")).1 [JObject.of_bool true, JObject.new, JObject.of_list []]
    (by
      intro e he
      simp only [List.mem_cons, List.mem_singleton, List.not_mem_nil, or_false] at he
      rcases he with rfl | rfl | rfl <;>
        simp [JObject.deep_consistent, all_list_consistent, JObject.of_bool,
          JObject.Bool, JObject.new, JObject.of_list, JObject.List, JObject.m_type,
          JObject.m_value, JObject.raw])

/-- C2: `to_string` of a DICT Value is an opening brace, then one text
`"key":to_string(value)` per entry, in the iteration order of the map and joined
by single commas, then a closing brace. For a map holding entries with distinct
keys, built by assignments in any order, that order is the strictly ascending key
order. The empty dict gives an empty pair of braces, and the dict with `a`->1 and
`b`->2 gives the text with `a` first. -/
theorem C2_to_string_dict (dbl : double_t → String) :
    (∀ d : dict_t, (∀ kv ∈ d, kv.2.deep_consistent) →
      ∃ ss : List String,
        List.Forall₂ (fun kv s => JObject.to_string dbl kv.2 = .ok s) d ss ∧
        JObject.to_string dbl ⟨T_DICT, .dict d⟩
          = .ok ("\x7b" ++ ",".intercalate (List.zipWith (fun kv s => entry_text kv.1 s) d ss)
              ++ "\x7d")) ∧
    (∀ es ps : List (String × JObject), (es.map Prod.fst).Nodup →
      (∀ kv ∈ es, kv.2.deep_consistent) → ps.Perm es → dict_wf ps →
      ∃ ss : List String,
        List.Forall₂ (fun kv s => JObject.to_string dbl kv.2 = .ok s) ps ss ∧
        JObject.to_string dbl (JObject.of_dict (dict_from es JObject.new))
          = .ok ("\x7b" ++ ",".intercalate (List.zipWith (fun kv s => entry_text kv.1 s) ps ss)
              ++ "\x7d")) ∧
    JObject.to_string dbl (JObject.of_dict []) = .ok "\x7b\x7d" ∧
    JObject.to_string dbl
      (JObject.of_dict (dict_from [("b", JObject.of_int 2), ("a", JObject.of_int 1)] JObject.new))
        = .ok "\x7b\x22a\x22:1,\x22b\x22:2\x7d" := by
  have key : ∀ d : dict_t, (∀ kv ∈ d, kv.2.deep_consistent) →
      ∃ ss : List String,
        List.Forall₂ (fun kv s => JObject.to_string dbl kv.2 = .ok s) d ss ∧
        JObject.to_string dbl ⟨T_DICT, .dict d⟩
          = .ok ("\x7b" ++ ",".intercalate (List.zipWith (fun kv s => entry_text kv.1 s) d ss)
              ++ "\x7d") := by
    intro d h
    obtain ⟨ss, hss⟩ := forall₂_of_forall_exists
      (fun (kv : String × JObject) s => JObject.to_string dbl kv.2 = .ok s) d
      (fun kv hkv => to_string_total dbl kv.2 (h kv hkv))
    exact ⟨ss, hss, to_string_dict_eq dbl d ss hss⟩
  refine ⟨key, ?_, rfl, rfl⟩
  intro es ps hnd hc hperm hps
  have hd : JObject.of_dict (dict_from es JObject.new) = ⟨T_DICT, .dict ps⟩ := by
    rw [dict_from_sorted JObject.new es ps hnd hperm hps]; rfl
  rw [hd]
  exact key ps (fun kv hkv => hc kv (hperm.mem_iff.1 hkv))

theorem C2_to_string_dict_witness :
    ∃ ss : List String,
      List.Forall₂ (fun kv s => JObject.to_string (fun _ => "") kv.2 = .ok s)
        [("a", JObject.of_int 1), ("b", JObject.of_bool true)] ss ∧
      JObject.to_string (fun _ => "")
        (JObject.of_dict
          (dict_from [("b", JObject.of_bool true), ("a", JObject.of_int 1)] JObject.new))
        = .ok ("\x7b" ++ ",".intercalate (List.zipWith (fun kv s => entry_text kv.1 s)
            [("a", JObject.of_int 1), ("b", JObject.of_bool true)] ss) ++ "\x7d") :=
  (C2_to_string_dict (fun _ => "")).2.1
    [("b", JObject.of_bool true), ("a", JObject.of_int 1)]
    [("a", JObject.of_int 1), ("b", JObject.of_bool true)]
    (by decide)
    (by
      intro kv hkv
      simp only [List.mem_cons, List.mem_singleton, List.not_mem_nil, or_false] at hkv
      rcases hkv with rfl | rfl <;>
        simp [JObject.deep_consistent, JObject.of_bool, JObject.Bool, JObject.of_int,
          JObject.Int, JObject.m_type, JObject.m_value, JObject.raw])
    (List.Perm.swap _ _ _)
    (by decide)

/-! ## Typed access -/

/-- C5: for each scalar kind (BOOL, INT, DOUBLE, STRING) the Value constructed
from a native value `v` reports that kind from `Type()`, and the typed accessor
for the kind returns a payload equal to `v`, leaving the Value as constructed. -/
theorem C5_construct_then_access :
    (∀ b : bool_t, (JObject.of_bool b).Type_ = T_BOOL ∧
      JObject.Value .bool_t (JObject.of_bool b) = (.ok b, JObject.of_bool b)) ∧
    (∀ i : int_t, (JObject.of_int i).Type_ = T_INT ∧
      JObject.Value .int_t (JObject.of_int i) = (.ok i, JObject.of_int i)) ∧
    (∀ d : double_t, (JObject.of_double d).Type_ = T_DOUBLE ∧
      JObject.Value .double_t (JObject.of_double d) = (.ok d, JObject.of_double d)) ∧
    (∀ s : str_t, (JObject.of_str s).Type_ = T_STR ∧
      JObject.Value .str_t (JObject.of_str s) = (.ok s, JObject.of_str s)) := by
  refine ⟨fun b => ⟨rfl, rfl⟩, fun i => ⟨rfl, rfl⟩, fun d => ⟨rfl, rfl⟩, fun s => ⟨rfl, rfl⟩⟩

/-- C6: when the requested kind differs from the current kind of `x` the typed
accessor throws the type error naming the requested kind and returns no payload
(a NULL Value requested as STRING included); when the requested kind is the
current kind of a Value satisfying the class invariant it returns a payload. -/
theorem C6_Value_kind_check (x : JObject) (K : VType) :
    (K.tag ≠ x.m_type → (JObject.Value K x).1 = .error (.logic_error K.get_error)) ∧
    (x.consistent → K.tag = x.m_type → ∃ p, (JObject.Value K x).1 = .ok p) := by
  constructor
  · intro h
    have h' : x.m_type ≠ K.tag := fun e => h e.symm
    simp [JObject.Value, h']
  · intro hc ht
    obtain ⟨t, v⟩ := x
    cases K <;> cases t <;> cases v <;>
      simp_all [JObject.consistent, JObject.Value, JObject.value, JObject.m_type,
        JObject.m_value, get_if, deref, VType.tag]

theorem C6_Value_kind_check_witness :
    (JObject.Value .str_t JObject.new).1
        = .error (.logic_error "type error in get string value!") ∧
    (∃ p, (JObject.Value .list_t (JObject.of_list [JObject.new])).1 = .ok p) :=
  ⟨(C6_Value_kind_check JObject.new .str_t).1 (by decide),
   (C6_Value_kind_check (JObject.of_list [JObject.new]) .list_t).2 trivial rfl⟩

/-! ## List and map mutators -/

/-- C7: on a LIST Value holding `es`, `push_back(item)` returns normally and leaves
a LIST Value whose sequence has one more element, starts with `es` unchanged and
in order, and ends with `item`. -/
theorem C7_push_back_appends (es : list_t) (item : JObject) :
    ∃ es' : list_t,
      JObject.push_back item ⟨T_LIST, .list es⟩ = (.ok (), ⟨T_LIST, .list es'⟩) ∧
      es'.length = es.length + 1 ∧
      es'.take es.length = es ∧
      es'.getLast? = some item := by
  refine ⟨es ++ [item], ?_, by simp, by simp, by simp⟩
  simp [JObject.push_back, Value_list, JObject.m_type]

/-- C8: on a DICT Value, keyed access with an absent key returns normally, links
in at that key an entry holding a default-constructed (NULL) Value, keeps every
other entry, and returns that entry. A later keyed access with the same key
returns the value the entry holds then, whether still null or overwritten through
the reference in between, and changes nothing. -/
theorem C8_keyed_access (d : dict_t) (k : String) (hwf : dict_wf d)
    (habs : map_find k d = none) :
    ∃ d' : dict_t,
      JObject.subscript k ⟨T_DICT, .dict d⟩ = (.ok JObject.new, ⟨T_DICT, .dict d'⟩) ∧
      JObject.new = ⟨T_NULL, .str "null"⟩ ∧
      dict_wf d' ∧
      d'.Perm ((k, JObject.new) :: d) ∧
      map_find k d' = some JObject.new ∧
      (∀ k', k' ≠ k → map_find k' d' = map_find k' d) ∧
      JObject.subscript k ⟨T_DICT, .dict d'⟩ = (.ok JObject.new, ⟨T_DICT, .dict d'⟩) ∧
      (∀ v : JObject,
        JObject.subscript k (JObject.store k v ⟨T_DICT, .dict d'⟩)
          = (.ok v, JObject.store k v ⟨T_DICT, .dict d'⟩) ∧
        JObject.store k v ⟨T_DICT, .dict d'⟩ = ⟨T_DICT, .dict (map_store k v d')⟩ ∧
        (map_store k v d').Perm ((k, v) :: d)) := by
  have h2 : (map_subscript k JObject.new d).2 = JObject.new :=
    map_subscript_absent k JObject.new d habs
  have hfind : map_find k (map_subscript k JObject.new d).1 = some JObject.new := by
    rw [map_find_subscript_self, h2]
  have hwf' := map_subscript_wf k JObject.new d hwf
  refine ⟨(map_subscript k JObject.new d).1, ?_, rfl, hwf', ?_, hfind, ?_, ?_, ?_⟩
  · simp [JObject.subscript, Value_dict, JObject.m_type, h2]
  · have := map_assign_perm k JObject.new JObject.new d habs
    rwa [show map_store k JObject.new (map_subscript k JObject.new d).1
        = (map_subscript k JObject.new d).1 from ?_] at this
    generalize (map_subscript k JObject.new d).1 = l at hfind
    induction l with
    | nil => rfl
    | cons kv l ih =>
      obtain ⟨k0, v0⟩ := kv
      simp only [map_find] at hfind
      simp only [map_store]
      split_ifs at hfind ⊢ with h0
      · simp only [Option.some.injEq] at hfind
        rw [hfind]
      · rw [ih hfind]
  · intro k' hk'
    exact map_find_subscript_other k k' JObject.new d hk'
  · simp [JObject.subscript, Value_dict, JObject.m_type,
      map_subscript_present k JObject.new JObject.new _ hwf' hfind]
  · intro v
    have hs : map_find k (map_store k v (map_subscript k JObject.new d).1) = some v :=
      map_find_store_self k v _ (by rw [hfind]; simp)
    refine ⟨?_, rfl, map_assign_perm k JObject.new v d habs⟩
    simp [JObject.store, JObject.subscript, Value_dict, JObject.m_type,
      map_subscript_present k JObject.new v _ (map_store_wf k v _ hwf') hs]

theorem C8_keyed_access_witness :
    ∃ d' : dict_t,
      JObject.subscript "b" ⟨T_DICT, .dict [("a", JObject.of_int 1), ("c", JObject.of_int 3)]⟩
        = (.ok JObject.new, ⟨T_DICT, .dict d'⟩) ∧
      JObject.new = ⟨T_NULL, .str "null"⟩ ∧
      dict_wf d' ∧
      d'.Perm (("b", JObject.new) :: [("a", JObject.of_int 1), ("c", JObject.of_int 3)]) ∧
      map_find "b" d' = some JObject.new ∧
      (∀ k', k' ≠ "b" →
        map_find k' d' = map_find k' [("a", JObject.of_int 1), ("c", JObject.of_int 3)]) ∧
      JObject.subscript "b" ⟨T_DICT, .dict d'⟩ = (.ok JObject.new, ⟨T_DICT, .dict d'⟩) ∧
      (∀ v : JObject,
        JObject.subscript "b" (JObject.store "b" v ⟨T_DICT, .dict d'⟩)
          = (.ok v, JObject.store "b" v ⟨T_DICT, .dict d'⟩) ∧
        JObject.store "b" v ⟨T_DICT, .dict d'⟩ = ⟨T_DICT, .dict (map_store "b" v d')⟩ ∧
        (map_store "b" v d').Perm
          (("b", v) :: [("a", JObject.of_int 1), ("c", JObject.of_int 3)])) :=
  C8_keyed_access [("a", JObject.of_int 1), ("c", JObject.of_int 3)] "b" (by decide) rfl

/-- C9: a failing operation leaves the Value as it was. `push_back` and `pop_back`
on a Value that is not a LIST, keyed access on a Value that is not a DICT, and
`Value<K>()` with `K` different from the current kind all throw a
`std::logic_error`, and the Value after the call is the Value before it. -/
theorem C9_failure_leaves_value_unchanged (x : JObject) :
    (x.m_type ≠ T_LIST → ∀ item, JObject.push_back item x
      = (.error (.logic_error "not a list type! JObjcct::push_back()"), x)) ∧
    (x.m_type ≠ T_LIST → JObject.pop_back x
      = (.error (.logic_error "not list type! JObjcct::pop_back()"), x)) ∧
    (x.m_type ≠ T_DICT → ∀ key, JObject.subscript key x
      = (.error (.logic_error "not dict type! JObject::opertor[]()"), x)) ∧
    (∀ K : VType, K.tag ≠ x.m_type →
      JObject.Value K x = (.error (.logic_error K.get_error), x)) := by
  refine ⟨fun h item => ?_, fun h => ?_, fun h key => ?_, fun K h => ?_⟩
  · simp only [JObject.push_back, if_neg h]
  · simp only [JObject.pop_back, if_neg h]
  · simp only [JObject.subscript, if_neg h]
  · have h' : x.m_type ≠ K.tag := fun e => h e.symm
    simp only [JObject.Value, if_pos h']

theorem C9_failure_leaves_value_unchanged_witness :
    JObject.push_back JObject.new (JObject.of_int 7)
      = (.error (.logic_error "not a list type! JObjcct::push_back()"), JObject.of_int 7) ∧
    JObject.pop_back (JObject.of_int 7)
      = (.error (.logic_error "not list type! JObjcct::pop_back()"), JObject.of_int 7) ∧
    JObject.subscript "k" (JObject.of_int 7)
      = (.error (.logic_error "not dict type! JObject::opertor[]()"), JObject.of_int 7) ∧
    JObject.Value .str_t (JObject.of_int 7)
      = (.error (.logic_error "type error in get string value!"), JObject.of_int 7) :=
  ⟨(C9_failure_leaves_value_unchanged (JObject.of_int 7)).1 (by decide) JObject.new,
   (C9_failure_leaves_value_unchanged (JObject.of_int 7)).2.1 (by decide),
   (C9_failure_leaves_value_unchanged (JObject.of_int 7)).2.2.1 (by decide) "k",
   (C9_failure_leaves_value_unchanged (JObject.of_int 7)).2.2.2 .str_t (by decide)⟩

/-- C10: on a LIST Value holding a non-empty sequence, `pop_back` returns normally
and leaves a LIST Value holding the sequence without its last element; on a Value
whose kind is not LIST it throws the not-a-list `std::logic_error`. -/
theorem C10_pop_back :
    (∀ l : list_t, l ≠ [] → ∃ (es : list_t) (e : JObject), l = es ++ [e] ∧
      JObject.pop_back ⟨T_LIST, .list l⟩ = (.ok (), ⟨T_LIST, .list es⟩)) ∧
    (∀ x : JObject, x.m_type ≠ T_LIST →
      (JObject.pop_back x).1 = .error (.logic_error "not list type! JObjcct::pop_back()")) := by
  constructor
  · intro l hl
    refine ⟨l.dropLast, l.getLast hl, (List.dropLast_append_getLast hl).symm, ?_⟩
    simp [JObject.pop_back, Value_list, JObject.m_type, hl]
  · intro x h
    simp only [JObject.pop_back, if_neg h]

theorem C10_pop_back_witness :
    (∃ (es : list_t) (e : JObject), [JObject.of_int 1, JObject.of_int 2] = es ++ [e] ∧
      JObject.pop_back ⟨T_LIST, .list [JObject.of_int 1, JObject.of_int 2]⟩
        = (.ok (), ⟨T_LIST, .list es⟩)) ∧
    (JObject.pop_back JObject.new).1
      = .error (.logic_error "not list type! JObjcct::pop_back()") :=
  ⟨C10_pop_back.1 [JObject.of_int 1, JObject.of_int 2] (by simp),
   C10_pop_back.2 JObject.new (by decide)⟩

/-! ## `pop_back` on an empty list -/

/-- C11: the claim asks that `pop_back` on a LIST Value with an empty sequence fail
with an error. The code calls `std::vector::pop_back` on the empty vector, outside
its precondition: no error is thrown and the behaviour is undefined. -/
theorem C11_pop_back_empty_is_undefined :
    JObject.pop_back (JObject.of_list [])
      = (.error .undefined_behaviour, JObject.of_list []) ∧
    ∀ what : String,
      (JObject.pop_back (JObject.of_list [])).1 ≠ .error (.logic_error what) := by
  refine ⟨rfl, fun what h => ?_⟩
  have h' : (Except.error Fault.undefined_behaviour : Except Fault Unit)
      = .error (.logic_error what) := h
  cases h'

/-! ## Setters and constructors -/

/-- C15: each setter replaces kind and payload whatever the Value held before: the
result is the Value the matching constructor builds from the same argument, with
the same text, and `Null()` on any Value gives the default-constructed Value. -/
theorem C15_setters_replace_wholesale (dbl : double_t → String) (x : JObject) :
    (JObject.Null x = JObject.new ∧
      JObject.to_string dbl (JObject.Null x) = JObject.to_string dbl JObject.new) ∧
    (∀ i : int_t, JObject.Int i x = JObject.of_int i ∧
      JObject.to_string dbl (JObject.Int i x) = JObject.to_string dbl (JObject.of_int i)) ∧
    (∀ b : bool_t, JObject.Bool b x = JObject.of_bool b ∧
      JObject.to_string dbl (JObject.Bool b x) = JObject.to_string dbl (JObject.of_bool b)) ∧
    (∀ f : double_t, JObject.Double f x = JObject.of_double f ∧
      JObject.to_string dbl (JObject.Double f x)
        = JObject.to_string dbl (JObject.of_double f)) ∧
    (∀ s : str_t, JObject.Str s x = JObject.of_str s ∧
      JObject.to_string dbl (JObject.Str s x) = JObject.to_string dbl (JObject.of_str s)) ∧
    (∀ l : list_t, JObject.List l x = JObject.of_list l ∧
      JObject.to_string dbl (JObject.List l x) = JObject.to_string dbl (JObject.of_list l)) ∧
    (∀ m : dict_t, JObject.Dict m x = JObject.of_dict m ∧
      JObject.to_string dbl (JObject.Dict m x) = JObject.to_string dbl (JObject.of_dict m)) ∧
    (∀ i : int_t, (JObject.Int i x).m_type = T_INT ∧ (JObject.Int i x).m_value = .int i) :=
  ⟨⟨rfl, rfl⟩, fun _ => ⟨rfl, rfl⟩, fun _ => ⟨rfl, rfl⟩, fun _ => ⟨rfl, rfl⟩,
    fun _ => ⟨rfl, rfl⟩, fun _ => ⟨rfl, rfl⟩, fun _ => ⟨rfl, rfl⟩, fun _ => ⟨rfl, rfl⟩⟩

/-! ## `push_back` then `pop_back` -/

/-- C20: on a LIST Value holding `es`, empty or not, `push_back(item)` and then
`pop_back()` both return normally and leave the Value with the kind, the sequence
and the text it had before. -/
theorem C20_push_back_then_pop_back (dbl : double_t → String) (es : list_t)
    (item : JObject) :
    ∃ x' x'' : JObject,
      JObject.push_back item ⟨T_LIST, .list es⟩ = (.ok (), x') ∧
      JObject.pop_back x' = (.ok (), x'') ∧
      x'' = ⟨T_LIST, .list es⟩ ∧
      x''.m_type = T_LIST ∧ x''.m_value = .list es ∧
      JObject.to_string dbl x'' = JObject.to_string dbl ⟨T_LIST, .list es⟩ := by
  refine ⟨⟨T_LIST, .list (es ++ [item])⟩, ⟨T_LIST, .list es⟩, ?_, ?_, rfl, rfl, rfl, rfl⟩
  · simp [JObject.push_back, Value_list, JObject.m_type]
  · simp [JObject.pop_back, Value_list, JObject.m_type]

/-! ## Induction over Value trees -/

theorem tree_induction_aux (motive : JObject → Prop)
    (node : ∀ (t : TYPE) (v : value_t),
      (∀ l : list_t, v = .list l → ∀ e ∈ l, motive e) →
      (∀ d : dict_t, v = .dict d → ∀ kv ∈ d, motive kv.2) → motive ⟨t, v⟩) :
    ∀ (n : Nat) (x : JObject), sizeOf x ≤ n → motive x := by
  intro n
  induction n with
  | zero =>
    intro x hx
    obtain ⟨t, v⟩ := x
    simp at hx
  | succ n ih =>
    intro x hx
    obtain ⟨t, v⟩ := x
    refine node t v ?_ ?_
    · intro l hl e he
      subst hl
      refine ih e ?_
      have := List.sizeOf_lt_of_mem he
      simp at hx
      omega
    · intro d hd kv hkv
      subst hd
      refine ih kv.2 ?_
      have := List.sizeOf_lt_of_mem hkv
      obtain ⟨k, w⟩ := kv
      simp at hx this ⊢
      omega

/-- A property holds of every Value when it holds of a node as soon as it holds of
the elements of its LIST payload and of the values of its DICT payload. -/
theorem tree_induction (motive : JObject → Prop)
    (node : ∀ (t : TYPE) (v : value_t),
      (∀ l : list_t, v = .list l → ∀ e ∈ l, motive e) →
      (∀ d : dict_t, v = .dict d → ∀ kv ∈ d, motive kv.2) → motive ⟨t, v⟩)
    (x : JObject) : motive x :=
  tree_induction_aux motive node (sizeOf x) x (Nat.le_refl _)

theorem every_element_iff (P : JObject → Prop) (K : String → Prop) (l : list_t) :
    every_element P K l ↔ ∀ e ∈ l, e.every P K := by
  induction l with
  | nil => simp [every_element]
  | cons e l ih => simp [every_element, ih]

theorem every_entry_iff (P : JObject → Prop) (K : String → Prop) (d : dict_t) :
    every_entry P K d ↔ ∀ kv ∈ d, K kv.1 ∧ kv.2.every P K := by
  induction d with
  | nil => simp [every_entry]
  | cons kv d ih =>
    obtain ⟨k, v⟩ := kv
    simp [every_entry, ih]

theorem every_node (P : JObject → Prop) (K : String → Prop) (x : JObject)
    (h : x.every P K) : P x := by
  obtain ⟨t, v⟩ := x
  cases v <;> simp only [JObject.every] at h
  all_goals first | exact h | exact h.1

theorem every_list (P : JObject → Prop) (K : String → Prop) (t : TYPE) (l : list_t) :
    JObject.every P K ⟨t, .list l⟩ ↔ P ⟨t, .list l⟩ ∧ ∀ e ∈ l, e.every P K := by
  rw [JObject.every, every_element_iff]

theorem every_dict (P : JObject → Prop) (K : String → Prop) (t : TYPE) (d : dict_t) :
    JObject.every P K ⟨t, .dict d⟩
      ↔ P ⟨t, .dict d⟩ ∧ ∀ kv ∈ d, K kv.1 ∧ kv.2.every P K := by
  rw [JObject.every, every_entry_iff]

/-! ## Serialization does not modify the Value -/

theorem list_loop_st_eq (dbl : double_t → String) (l : list_t)
    (h : ∀ e ∈ l, JObject.to_string_st dbl e = (JObject.to_string dbl e, e)) :
    ∀ (size i : Nat) (os : String),
      list_loop_st dbl size i l os = (list_loop dbl size i l os, l) := by
  induction l with
  | nil => intro size i os; simp [list_loop_st, list_loop]
  | cons e l ih =>
    intro size i os
    have he := h e (List.mem_cons_self _ _)
    have ih' := ih (fun e' he' => h e' (List.mem_cons_of_mem _ he'))
    rw [list_loop_st, list_loop, he]
    cases hs : JObject.to_string dbl e with
    | error f => rfl
    | ok s =>
      simp only
      split_ifs <;> simp [ih']

theorem dict_loop_st_eq (dbl : double_t → String) (d : dict_t)
    (h : ∀ kv ∈ d, JObject.to_string_st dbl kv.2 = (JObject.to_string dbl kv.2, kv.2)) :
    ∀ (first : Bool) (os : String),
      dict_loop_st dbl first d os = (dict_loop dbl first d os, d) := by
  induction d with
  | nil => intro first os; simp [dict_loop_st, dict_loop]
  | cons kv d ih =>
    intro first os
    obtain ⟨k, v⟩ := kv
    have he := h (k, v) (List.mem_cons_self _ _)
    have ih' := ih (fun e' he' => h e' (List.mem_cons_of_mem _ he'))
    simp only at he
    rw [dict_loop_st, dict_loop, he]
    cases hs : JObject.to_string dbl v with
    | error f => rfl
    | ok s => simp [ih']

theorem to_string_st_eq (dbl : double_t → String) (x : JObject) :
    JObject.to_string_st dbl x = (JObject.to_string dbl x, x) := by
  induction x using tree_induction with
  | node t v hl hd =>
    cases t <;> cases v <;> try rfl
    · rename_i l
      rw [JObject.to_string_st, JObject.to_string, list_loop_st_eq dbl l (hl l rfl)]
      cases list_loop dbl l.length 0 l "[" <;> rfl
    · rename_i d
      rw [JObject.to_string_st, JObject.to_string, dict_loop_st_eq dbl d (hd d rfl)]
      cases dict_loop dbl true d "\x7b" <;> rfl

/-- C14: a call of `to_string` leaves the Value, kind and payload at every level,
as it was, and its outcome is a function of the Value alone; so a second call on
the Value the first call left returns the same text. -/
theorem C14_to_string_leaves_value_unchanged (dbl : double_t → String) (x : JObject) :
    (JObject.to_string_st dbl x).2 = x ∧
    (JObject.to_string_st dbl x).1 = JObject.to_string dbl x ∧
    (JObject.to_string_st dbl (JObject.to_string_st dbl x).2).1
      = (JObject.to_string_st dbl x).1 := by
  simp only [to_string_st_eq]
  exact ⟨trivial, trivial, trivial⟩

/-! ## Insertion order of a dict -/

theorem map_find_none_of_lt (k : String) (d : dict_t) (h : ∀ b ∈ d, k < b.1) :
    map_find k d = none := by
  induction d with
  | nil => rfl
  | cons kv d ih =>
    obtain ⟨k0, v0⟩ := kv
    have h0 : k < k0 := h (k0, v0) (List.mem_cons_self _ _)
    simp only [map_find, if_neg (ne_of_gt h0)]
    exact ih (fun b hb => h b (List.mem_cons_of_mem _ hb))

/-- Two maps with the same lookups hold the same entries in the same order. -/
theorem dict_ext (d1 : dict_t) : ∀ d2 : dict_t, dict_wf d1 → dict_wf d2 →
    (∀ k, map_find k d1 = map_find k d2) → d1 = d2 := by
  induction d1 with
  | nil =>
    intro d2 _ _ h
    cases d2 with
    | nil => rfl
    | cons kv d2 =>
      obtain ⟨k, v⟩ := kv
      have := h k
      simp [map_find] at this
  | cons kv1 d1 ih =>
    intro d2 h1 h2 h
    obtain ⟨k1, v1⟩ := kv1
    have h1' := List.pairwise_cons.1 h1
    cases d2 with
    | nil =>
      have := h k1
      simp [map_find] at this
    | cons kv2 d2 =>
      obtain ⟨k2, v2⟩ := kv2
      have h2' := List.pairwise_cons.1 h2
      have hk : k1 = k2 := by
        rcases lt_trichotomy k1 k2 with hlt | heq | hgt
        · exfalso
          have hn : map_find k1 ((k2, v2) :: d2) = none := by
            apply map_find_none_of_lt
            intro b hb
            rcases List.mem_cons.1 hb with hb | hb
            · rw [hb]; exact hlt
            · exact lt_trans hlt (h2'.1 b hb)
          have := h k1
          rw [hn] at this
          simp [map_find] at this
        · exact heq
        · exfalso
          have hn : map_find k2 ((k1, v1) :: d1) = none := by
            apply map_find_none_of_lt
            intro b hb
            rcases List.mem_cons.1 hb with hb | hb
            · rw [hb]; exact hgt
            · exact lt_trans hgt (h1'.1 b hb)
          have := h k2
          rw [hn] at this
          simp [map_find] at this
      subst hk
      have hv : v1 = v2 := by
        have := h k1
        simpa [map_find] using this
      subst hv
      have htail : d1 = d2 := by
        refine ih d2 h1'.2 h2'.2 ?_
        intro k
        by_cases hkk : k1 = k
        · subst hkk
          rw [map_find_none_of_lt k1 d1 h1'.1, map_find_none_of_lt k1 d2 h2'.1]
        · have := h k
          simpa [map_find, hkk] using this
      rw [htail]

/-- Lookup after the assignment `m[k] = v`. -/
theorem map_find_assign (k k' : String) (dflt v : JObject) (d : dict_t) :
    map_find k' (map_store k v (map_subscript k dflt d).1)
      = if k' = k then some v else map_find k' d := by
  by_cases h : k' = k
  · subst h
    rw [if_pos rfl]
    apply map_find_store_self
    rw [map_find_subscript_self]
    simp
  · rw [if_neg h, map_find_store_other k k' v _ h, map_find_subscript_other k k' dflt d h]

theorem assign_dict (k : String) (v : JObject) (d : dict_t) :
    JObject.assign k v ⟨T_DICT, .dict d⟩
      = (.ok (), ⟨T_DICT, .dict (map_store k v (map_subscript k JObject.new d).1)⟩) := by
  simp [JObject.assign, JObject.subscript, Value_dict, JObject.m_type, JObject.store]

/-- C18: on a DICT Value, storing `v1` at `k1` and then `v2` at `k2` through keyed
access leaves the same Value, with the same entries and the same text, as storing
`v2` at `k2` and then `v1` at `k1`, for distinct keys; the entries of the result
are in strictly ascending key order, the order in which `to_string` writes them. -/
theorem C18_dict_insertion_order (dbl : double_t → String) (d : dict_t) (k1 k2 : String)
    (v1 v2 : JObject) (hwf : dict_wf d) (hne : k1 ≠ k2) :
    ∃ d' : dict_t,
      (JObject.assign k2 v2 (JObject.assign k1 v1 ⟨T_DICT, .dict d⟩).2)
        = (.ok (), ⟨T_DICT, .dict d'⟩) ∧
      (JObject.assign k1 v1 (JObject.assign k2 v2 ⟨T_DICT, .dict d⟩).2)
        = (.ok (), ⟨T_DICT, .dict d'⟩) ∧
      dict_wf d' ∧
      (∀ k, map_find k d'
        = if k = k2 then some v2 else if k = k1 then some v1 else map_find k d) ∧
      (∀ ss : List String,
        List.Forall₂ (fun kv s => JObject.to_string dbl kv.2 = .ok s) d' ss →
        JObject.to_string dbl ⟨T_DICT, .dict d'⟩
          = .ok ("\x7b" ++ ",".intercalate (List.zipWith (fun kv s => entry_text kv.1 s) d' ss)
              ++ "\x7d")) := by
  have wf_assign : ∀ (k : String) (v : JObject) (m : dict_t), dict_wf m →
      dict_wf (map_store k v (map_subscript k JObject.new m).1) :=
    fun k v m hm => map_store_wf k v _ (map_subscript_wf k JObject.new m hm)
  refine ⟨map_store k2 v2 (map_subscript k2 JObject.new
      (map_store k1 v1 (map_subscript k1 JObject.new d).1)).1, ?_, ?_, ?_, ?_, ?_⟩
  · simp [assign_dict]
  · simp only [assign_dict, Prod.mk.injEq, true_and, JObject.mk.injEq, value_t.dict.injEq]
    apply dict_ext _ _ (wf_assign _ _ _ (wf_assign _ _ _ hwf))
      (wf_assign _ _ _ (wf_assign _ _ _ hwf))
    intro k
    simp only [map_find_assign]
    by_cases h1 : k = k1
    · subst h1
      simp [hne]
    · by_cases h2 : k = k2
      · subst h2
        simp [h1]
      · simp [h1, h2]
  · exact wf_assign _ _ _ (wf_assign _ _ _ hwf)
  · intro k
    simp only [map_find_assign]
  · intro ss hss
    exact to_string_dict_eq dbl _ ss hss

theorem C18_dict_insertion_order_witness :
    ∃ d' : dict_t,
      (JObject.assign "a" (JObject.of_int 2)
          (JObject.assign "b" (JObject.of_int 1) ⟨T_DICT, .dict [("c", JObject.new)]⟩).2)
        = (.ok (), ⟨T_DICT, .dict d'⟩) ∧
      (JObject.assign "b" (JObject.of_int 1)
          (JObject.assign "a" (JObject.of_int 2) ⟨T_DICT, .dict [("c", JObject.new)]⟩).2)
        = (.ok (), ⟨T_DICT, .dict d'⟩) ∧
      dict_wf d' ∧
      (∀ k, map_find k d'
        = if k = "a" then some (JObject.of_int 2) else if k = "b" then some (JObject.of_int 1)
          else map_find k [("c", JObject.new)]) ∧
      (∀ ss : List String,
        List.Forall₂ (fun kv s => JObject.to_string (fun _ => "") kv.2 = .ok s) d' ss →
        JObject.to_string (fun _ => "") ⟨T_DICT, .dict d'⟩
          = .ok ("\x7b" ++ ",".intercalate (List.zipWith (fun kv s => entry_text kv.1 s) d' ss)
              ++ "\x7d")) :=
  C18_dict_insertion_order (fun _ => "") [("c", JObject.new)] "b" "a" (JObject.of_int 1)
    (JObject.of_int 2) (by decide) (by decide)

/-! ## The class invariant on reachable values -/

theorem invariant_kind (x : JObject) (h : x.invariant) : x.kind_matches :=
  every_node _ _ x h

theorem invariant_list_iff (l : list_t) :
    JObject.invariant ⟨T_LIST, .list l⟩ ↔ ∀ e ∈ l, e.invariant := by
  simp [JObject.invariant, every_list, JObject.kind_matches]

theorem invariant_dict_iff (d : dict_t) :
    JObject.invariant ⟨T_DICT, .dict d⟩ ↔ ∀ kv ∈ d, kv.2.invariant := by
  simp [JObject.invariant, every_dict, JObject.kind_matches]

theorem invariant_deep_consistent (x : JObject) : x.invariant → x.deep_consistent := by
  induction x using tree_induction with
  | node t v hl hd =>
    intro h
    have hk := invariant_kind _ h
    cases t <;> cases v <;> simp only [JObject.kind_matches] at hk <;>
      try (simp only [JObject.deep_consistent])
    · rename_i l
      rw [all_list_iff]
      exact fun e he => hl l rfl e he ((invariant_list_iff l).1 h e he)
    · rename_i d
      rw [all_dict_iff]
      exact fun kv hkv => hd d rfl kv hkv ((invariant_dict_iff d).1 h kv hkv)

theorem os_int_ne_empty (i : Int) : os_int i ≠ "" := by
  obtain ⟨ds, ⟨_, hne, _, _⟩, hdata⟩ := os_int_canonical i
  have hd : (os_int i).data ≠ [] := by
    rw [hdata]
    split_ifs
    · simp
    · exact hne
  intro e
  rw [e] at hd
  exact hd rfl

theorem brackets_match_plain (cs : List Char) (h : ∀ c ∈ cs, ¬ is_structural c) :
    ∀ rest stack, brackets_match (cs ++ rest) stack = brackets_match rest stack := by
  induction cs with
  | nil => intro rest stack; rfl
  | cons c cs ih =>
    intro rest stack
    have hc := h c (List.mem_cons_self _ _)
    simp only [is_structural, not_or] at hc
    obtain ⟨h1, h2, h3, h4, _⟩ := hc
    simp only [List.cons_append, brackets_match, if_neg h1, if_neg h3, h2, h4, or_self, if_false]
    exact ih (fun c' hc' => h c' (List.mem_cons_of_mem _ hc')) rest stack

theorem no_bad_comma_plain (cs : List Char) (h : ∀ c ∈ cs, ¬ is_structural c) :
    no_bad_comma cs := by
  induction cs with
  | nil => exact List.chain'_nil
  | cons c cs ih =>
    have ih' := ih (fun c' hc' => h c' (List.mem_cons_of_mem _ hc'))
    cases cs with
    | nil => exact List.chain'_singleton _
    | cons d cs =>
      refine List.chain'_cons.2 ⟨?_, ih'⟩
      have hc := h c (List.mem_cons_self _ _)
      simp only [is_structural, not_or] at hc
      simp [bad_comma, hc]

theorem nested_text_plain (cs : List Char) (hne : cs ≠ []) (h : ∀ c ∈ cs, ¬ is_structural c) :
    nested_text 0 0 cs := by
  have hcount : ∀ c, is_structural c → cs.count c = 0 := by
    intro c hc
    rw [List.count_eq_zero]
    intro hmem
    exact h c hmem hc
  refine ⟨brackets_match_plain cs h, ⟨hcount _ (by simp [is_structural]), hcount _ (by simp [is_structural]),
    hcount _ (by simp [is_structural]), hcount _ (by simp [is_structural])⟩, no_bad_comma_plain cs h, ?_, ?_⟩
  · cases cs with
    | nil => exact absurd rfl hne
    | cons a t =>
      have ha := h a (List.mem_cons_self _ _)
      simp only [is_structural, not_or] at ha
      exact ⟨a, rfl, ha.2.2.2.2, ha.2.1, ha.2.2.2.1⟩
  · obtain ⟨b, hb⟩ : ∃ b, cs.getLast? = some b := by
      cases hl : cs.getLast? with
      | none => exact absurd (List.getLast?_eq_none_iff.1 hl) hne
      | some b => exact ⟨b, rfl⟩
    have hb' := h b (List.mem_of_mem_getLast? hb)
    simp only [is_structural, not_or] at hb'
    exact ⟨b, hb, hb'.2.2.2.2, hb'.1, hb'.2.2.1⟩

/-- Two texts one after the other, where the pair at the seam is allowed. -/
theorem nested_text_append (a b c d : Nat) (s t : List Char)
    (hs : nested_text a b s) (ht : nested_text c d t)
    (hseam : ∀ x y, s.getLast? = some x → t.head? = some y → ¬ bad_comma x y) :
    nested_text (a + c) (b + d) (s ++ t) := by
  obtain ⟨hs1, ⟨hs2, hs3, hs4, hs5⟩, hs6, ⟨x, hx, hx'⟩, ⟨y, hy, hy'⟩⟩ := hs
  obtain ⟨ht1, ⟨ht2, ht3, ht4, ht5⟩, ht6, ⟨x', hx2, hx2'⟩, ⟨y', hy2, hy2'⟩⟩ := ht
  have hsne : s ≠ [] := by rintro rfl; simp at hx
  have htne : t ≠ [] := by rintro rfl; simp at hx2
  refine ⟨?_, ⟨by simp [hs2, ht2], by simp [hs3, ht3], by simp [hs4, ht4], by simp [hs5, ht5]⟩,
    ?_, ⟨x, ?_, hx'⟩, ⟨y', ?_, hy2'⟩⟩
  · intro rest stack
    rw [List.append_assoc, hs1, ht1]
  · refine List.chain'_append.2 ⟨hs6, ht6, ?_⟩
    intro u hu v hv
    exact hseam u v hu hv
  · cases s with
    | nil => exact absurd rfl hsne
    | cons a s => simpa using hx
  · rw [List.getLast?_append_of_ne_nil _ htne]; exact hy2

theorem nested_text_comma (a b c d : Nat) (s t : List Char)
    (hs : nested_text a b s) (ht : nested_text c d t) :
    nested_text (a + c) (b + d) (s ++ ',' :: t) := by
  obtain ⟨hs1, ⟨hs2, hs3, hs4, hs5⟩, hs6, ⟨x, hx, hx'⟩, ⟨y, hy, hy'⟩⟩ := hs
  obtain ⟨ht1, ⟨ht2, ht3, ht4, ht5⟩, ht6, ⟨x', hx2, hx2'⟩, ⟨y', hy2, hy2'⟩⟩ := ht
  have hsne : s ≠ [] := by rintro rfl; simp at hx
  have htne : t ≠ [] := by rintro rfl; simp at hx2
  refine ⟨?_, ⟨?_, ?_, ?_, ?_⟩, ?_, ⟨x, ?_, hx'⟩, ⟨y', ?_, hy2'⟩⟩
  · intro rest stack
    rw [List.append_assoc, hs1]
    have : ∀ r st, brackets_match (',' :: r) st = brackets_match r st := by
      intro r st
      simp [brackets_match]
    rw [List.cons_append, this, ht1]
  · simp [hs2, ht2]
  · simp [hs3, ht3]
  · simp [hs4, ht4]
  · simp [hs5, ht5]
  · refine List.chain'_append.2 ⟨hs6, ?_, ?_⟩
    · cases t with
      | nil => exact absurd rfl htne
      | cons v t =>
        refine List.chain'_cons.2 ⟨?_, ht6⟩
        simp only [List.head?_cons, Option.some.injEq] at hx2
        subst hx2
        simp [bad_comma, hx2'.2.1, hx2'.2.2]
    · intro u hu v hv
      simp only [List.head?_cons, Option.mem_def, Option.some.injEq] at hv
      subst hv
      rw [Option.mem_def, hy] at hu
      simp only [Option.some.injEq] at hu
      subst hu
      simp [bad_comma, hy'.2.1, hy'.2.2]
  · cases s with
    | nil => exact absurd rfl hsne
    | cons a s => simpa using hx
  · rw [List.getLast?_append_of_ne_nil _ (List.cons_ne_nil _ _)]
    cases t with
    | nil => exact absurd rfl htne
    | cons v t => rw [List.getLast?_cons_cons]; exact hy2


theorem brackets_match_open_list (r st : List Char) :
    brackets_match ('[' :: r) st = brackets_match r (']' :: st) := by
  simp [brackets_match]

theorem brackets_match_close_list (r st : List Char) :
    brackets_match (']' :: r) (']' :: st) = brackets_match r st := by
  simp [brackets_match]

theorem brackets_match_open_dict (r st : List Char) :
    brackets_match ('{' :: r) st = brackets_match r ('}' :: st) := by
  simp [brackets_match]

theorem brackets_match_close_dict (r st : List Char) :
    brackets_match ('}' :: r) ('}' :: st) = brackets_match r st := by
  simp [brackets_match]

theorem nested_text_wrap_list (a b : Nat) (s : List Char) (hs : nested_text a b s) :
    nested_text (a + 1) b ('[' :: (s ++ [']'])) := by
  obtain ⟨hs1, ⟨hs2, hs3, hs4, hs5⟩, hs6, ⟨x, hx, hx'⟩, ⟨y, hy, hy'⟩⟩ := hs
  have hsne : s ≠ [] := by rintro rfl; simp at hx
  refine ⟨?_, ⟨by simp [hs2], by simp [hs3], by simp [hs4], by simp [hs5]⟩, ?_,
    ⟨'[', rfl, by decide⟩, ⟨']', ?_, by decide⟩⟩
  · intro rest stack
    rw [List.cons_append, brackets_match_open_list, List.append_assoc, hs1,
      List.singleton_append, brackets_match_close_list]
  · cases s with
    | nil => exact absurd rfl hsne
    | cons v t =>
      simp only [List.head?_cons, Option.some.injEq] at hx
      subst hx
      refine List.chain'_cons.2 ⟨by simp [bad_comma, hx'.1], ?_⟩
      refine List.chain'_append.2 ⟨hs6, List.chain'_singleton _, ?_⟩
      intro u hu w hw
      simp only [List.head?_cons, Option.mem_def, Option.some.injEq] at hw
      subst hw
      rw [Option.mem_def, hy] at hu
      simp only [Option.some.injEq] at hu
      subst hu
      simp [bad_comma, hy'.1]
  · rw [← List.cons_append, List.getLast?_append_of_ne_nil _ (List.cons_ne_nil _ _)]
    rfl

theorem nested_text_wrap_dict (a b : Nat) (s : List Char) (hs : nested_text a b s) :
    nested_text a (b + 1) ('{' :: (s ++ ['}'])) := by
  obtain ⟨hs1, ⟨hs2, hs3, hs4, hs5⟩, hs6, ⟨x, hx, hx'⟩, ⟨y, hy, hy'⟩⟩ := hs
  have hsne : s ≠ [] := by rintro rfl; simp at hx
  refine ⟨?_, ⟨by simp [hs2], by simp [hs3], by simp [hs4], by simp [hs5]⟩, ?_,
    ⟨'{', rfl, by decide⟩, ⟨'}', ?_, by decide⟩⟩
  · intro rest stack
    rw [List.cons_append, brackets_match_open_dict, List.append_assoc, hs1,
      List.singleton_append, brackets_match_close_dict]
  · cases s with
    | nil => exact absurd rfl hsne
    | cons v t =>
      simp only [List.head?_cons, Option.some.injEq] at hx
      subst hx
      refine List.chain'_cons.2 ⟨by simp [bad_comma, hx'.1], ?_⟩
      refine List.chain'_append.2 ⟨hs6, List.chain'_singleton _, ?_⟩
      intro u hu w hw
      simp only [List.head?_cons, Option.mem_def, Option.some.injEq] at hw
      subst hw
      rw [Option.mem_def, hy] at hu
      simp only [Option.some.injEq] at hu
      subst hu
      simp [bad_comma, hy'.1]
  · rw [← List.cons_append, List.getLast?_append_of_ne_nil _ (List.cons_ne_nil _ _)]
    rfl

theorem nested_text_empty_list : nested_text 1 0 ['[', ']'] := by
  refine ⟨fun rest stack => by simp [brackets_match], by decide, ?_, ⟨'[', rfl, by decide⟩,
    ⟨']', rfl, by decide⟩⟩
  exact List.chain'_cons.2 ⟨by simp [bad_comma], List.chain'_singleton _⟩

theorem nested_text_empty_dict : nested_text 0 1 ['{', '}'] := by
  refine ⟨fun rest stack => by simp [brackets_match], by decide, ?_, ⟨'{', rfl, by decide⟩,
    ⟨'}', rfl, by decide⟩⟩
  exact List.chain'_cons.2 ⟨by simp [bad_comma], List.chain'_singleton _⟩

theorem intercalate_data (ss : List String) :
    (",".intercalate ss).data = join_comma (ss.map String.data) := by
  induction ss with
  | nil => rfl
  | cons a ss ih =>
    cases ss with
    | nil => simp [String.intercalate, String.intercalate.go, join_comma]
    | cons b rest =>
      rw [intercalate_cons_cons, String.data_append, String.data_append, ih]
      simp [join_comma]

theorem join_comma_nested (es : list_t) (ss : List String)
    (h : List.Forall₂ (fun e s => nested_text (JObject.count_kind T_LIST e)
      (JObject.count_kind T_DICT e) (String.data s)) es ss) (hne : es ≠ []) :
    nested_text (count_kind_elements T_LIST es) (count_kind_elements T_DICT es)
      (join_comma (ss.map String.data)) := by
  induction h with
  | nil => exact absurd rfl hne
  | @cons e s es ss hes hrest ih =>
    cases hrest with
    | nil => simpa [join_comma, count_kind_elements] using hes
    | @cons e' s' es' ss' he' hrest' =>
      have ih' := ih (List.cons_ne_nil _ _)
      simp only [List.map_cons, join_comma] at ih' ⊢
      rw [count_kind_elements, count_kind_elements]
      exact nested_text_comma _ _ _ _ _ _ hes ih'

theorem entry_text_nested (a b : Nat) (k s : String) (hk : plain k)
    (hs : nested_text a b s.data) : nested_text a b (entry_text k s).data := by
  have hp : nested_text 0 0 ('"' :: (k.data ++ ['"', ':'])) := by
    apply nested_text_plain _ (List.cons_ne_nil _ _)
    intro c hc
    simp only [List.mem_cons, List.mem_append, List.mem_singleton, List.not_mem_nil,
      or_false] at hc
    rcases hc with rfl | hc | rfl | rfl
    · decide
    · exact hk c hc
    · decide
    · decide
  have := nested_text_append 0 0 a b _ _ hp hs (by
    intro x y hx _
    rw [← List.cons_append, List.getLast?_append_of_ne_nil _ (List.cons_ne_nil _ _)] at hx
    simp only [List.getLast?_cons_cons, List.getLast?_singleton, Option.some.injEq] at hx
    subst hx
    simp [bad_comma])
  simpa [entry_text, String.data_append] using this

theorem join_comma_entries_nested (d : dict_t) (ss : List String)
    (h : List.Forall₂ (fun kv s => plain kv.1 ∧ nested_text (JObject.count_kind T_LIST kv.2)
      (JObject.count_kind T_DICT kv.2) (String.data s)) d ss) (hne : d ≠ []) :
    nested_text (count_kind_entries T_LIST d) (count_kind_entries T_DICT d)
      (join_comma ((List.zipWith (fun kv s => entry_text kv.1 s) d ss).map String.data)) := by
  induction h with
  | nil => exact absurd rfl hne
  | @cons kv s d ss hkv hrest ih =>
    obtain ⟨k, v⟩ := kv
    have hhead := entry_text_nested _ _ k s hkv.1 hkv.2
    cases hrest with
    | nil => simpa [join_comma, count_kind_entries] using hhead
    | @cons kv' s' d' ss' hkv' hrest' =>
      have ih' := ih (List.cons_ne_nil _ _)
      simp only [List.zipWith_cons_cons, List.map_cons, join_comma] at ih' ⊢
      rw [count_kind_entries]
      exact nested_text_comma _ _ _ _ _ _ hhead ih'

theorem digit_not_structural (c : Char) (h : '0' ≤ c ∧ c ≤ '9') : ¬ is_structural c := by
  intro hs
  rcases hs with rfl | rfl | rfl | rfl | rfl
  · exact absurd h.2 (by decide)
  · exact absurd h.2 (by decide)
  · exact absurd h.2 (by decide)
  · exact absurd h.2 (by decide)
  · exact absurd h.1 (by decide)

theorem os_int_plain (i : Int) : plain (os_int i) := by
  obtain ⟨ds, ⟨_, _, _, hdig⟩, hdata⟩ := os_int_canonical i
  intro c hc
  rw [hdata] at hc
  split_ifs at hc
  · rcases List.mem_cons.1 hc with rfl | hc
    · decide
    · exact digit_not_structural c (hdig c hc)
  · exact digit_not_structural c (hdig c hc)

theorem texts_satisfy_list (Q : String → Prop) (t : TYPE) (l : list_t)
    (h : JObject.texts_satisfy Q ⟨t, .list l⟩) : ∀ e ∈ l, e.texts_satisfy Q :=
  ((every_list _ _ t l).1 h).2

theorem texts_satisfy_dict (Q : String → Prop) (t : TYPE) (d : dict_t)
    (h : JObject.texts_satisfy Q ⟨t, .dict d⟩) : ∀ kv ∈ d, Q kv.1 ∧ kv.2.texts_satisfy Q :=
  ((every_dict _ _ t d).1 h).2

theorem texts_satisfy_str (Q : String → Prop) (s : String)
    (h : JObject.texts_satisfy Q ⟨T_STR, .str s⟩) : Q s :=
  every_node _ _ _ h s rfl

/-- The text of a Value tree with plain strings and keys has one bracket pair per
LIST node and one brace pair per DICT node, properly nested, and no misplaced comma. -/
theorem to_string_nested (dbl : double_t → String)
    (hdbl : ∀ f, dbl f ≠ "" ∧ plain (dbl f)) (x : JObject) :
    x.invariant → x.texts_satisfy plain →
      ∃ s, JObject.to_string dbl x = .ok s ∧
        nested_text (x.count_kind T_LIST) (x.count_kind T_DICT) s.data := by
  induction x using tree_induction with
  | node t v hl hd =>
    intro hinv htxt
    have hk := invariant_kind _ hinv
    cases t <;> cases v <;> simp only [JObject.kind_matches] at hk
    · exact ⟨"null", rfl, nested_text_plain _ (by decide) (by decide)⟩
    · rename_i b
      cases b
      · exact ⟨"false", rfl, nested_text_plain _ (by decide) (by decide)⟩
      · exact ⟨"true", rfl, nested_text_plain _ (by decide) (by decide)⟩
    · rename_i i
      refine ⟨os_int i, rfl, nested_text_plain _ ?_ (os_int_plain i)⟩
      intro e
      exact os_int_ne_empty i (String.ext e)
    · rename_i f
      refine ⟨dbl f, rfl, nested_text_plain _ ?_ (hdbl f).2⟩
      intro e
      exact (hdbl f).1 (String.ext e)
    · rename_i s
      refine ⟨"\x22" ++ s ++ "\x22", rfl, ?_⟩
      have hs := texts_satisfy_str plain s htxt
      apply nested_text_plain
      · simp [String.data_append]
      · intro c hc
        simp only [String.data_append, List.mem_append] at hc
        rcases hc with (hc | hc) | hc
        · simp only [String.data, List.mem_singleton] at hc
          subst hc; decide
        · exact hs c hc
        · simp only [String.data, List.mem_singleton] at hc
          subst hc; decide
    · rename_i l
      have hall : ∀ e ∈ l, ∃ s, JObject.to_string dbl e = .ok s ∧
          nested_text (e.count_kind T_LIST) (e.count_kind T_DICT) s.data :=
        fun e he => hl l rfl e he ((invariant_list_iff l).1 hinv e he)
          (texts_satisfy_list plain _ l htxt e he)
      obtain ⟨ss, hss⟩ := forall₂_of_forall_exists _ l hall
      refine ⟨_, to_string_list_eq dbl l ss (hss.imp (fun _ _ h => h.1)), ?_⟩
      by_cases hne : l = []
      · subst hne
        cases hss
        exact nested_text_empty_list
      · have hj := join_comma_nested l ss (hss.imp (fun _ _ h => h.2)) hne
        have hw := nested_text_wrap_list _ _ _ hj
        simpa [String.data_append, intercalate_data, JObject.count_kind, Nat.add_comm]
          using hw
    · rename_i d
      have hall : ∀ kv ∈ d, ∃ s, JObject.to_string dbl kv.2 = .ok s ∧ (plain kv.1 ∧
          nested_text (kv.2.count_kind T_LIST) (kv.2.count_kind T_DICT) s.data) := by
        intro kv hkv
        have hq := texts_satisfy_dict plain _ d htxt kv hkv
        obtain ⟨s, h1, h2⟩ := hd d rfl kv hkv ((invariant_dict_iff d).1 hinv kv hkv) hq.2
        exact ⟨s, h1, hq.1, h2⟩
      obtain ⟨ss, hss⟩ := forall₂_of_forall_exists _ d hall
      refine ⟨_, to_string_dict_eq dbl d ss (hss.imp (fun _ _ h => h.1)), ?_⟩
      by_cases hne : d = []
      · subst hne
        cases hss
        exact nested_text_empty_dict
      · have hj := join_comma_entries_nested d ss (hss.imp (fun _ _ h => h.2)) hne
        have hw := nested_text_wrap_dict _ _ _ hj
        simpa [String.data_append, intercalate_data, JObject.count_kind, Nat.add_comm]
          using hw

/-- C13: for a Value tree of any depth satisfying the class invariant, whose STRING
payloads and dict keys hold no square bracket, brace or comma, and with doubles
rendered as non-empty texts free of those characters, `to_string` returns a text
whose square brackets and braces are balanced and properly nested, with one
bracket pair per LIST node and one brace pair per DICT node, and in which no comma
stands right before a closer or right after an opener. -/
theorem C13_balanced_brackets (dbl : double_t → String) (x : JObject)
    (hdbl : ∀ f, dbl f ≠ "" ∧ plain (dbl f)) (hinv : x.invariant)
    (htxt : x.texts_satisfy plain) :
    ∃ s, JObject.to_string dbl x = .ok s ∧
      brackets_match s.data [] = true ∧
      s.data.count '[' = x.count_kind T_LIST ∧ s.data.count ']' = x.count_kind T_LIST ∧
      s.data.count '{' = x.count_kind T_DICT ∧ s.data.count '}' = x.count_kind T_DICT ∧
      no_bad_comma s.data := by
  obtain ⟨s, hs, hb, ⟨h1, h2, h3, h4⟩, hc, _, _⟩ := to_string_nested dbl hdbl x hinv htxt
  refine ⟨s, hs, ?_, h1, h2, h3, h4, hc⟩
  have := hb [] []
  rw [List.append_nil] at this
  rw [this]
  rfl

theorem C13_balanced_brackets_witness :
    JObject.to_string (fun _ => "0")
      (JObject.of_dict [("a", JObject.of_list
        [JObject.of_dict [("b", JObject.of_int 1)], JObject.of_str "s"])])
      = .ok "\x7b\x22a\x22:[\x7b\x22b\x22:1\x7d,\x22s\x22]\x7d" ∧
    ∃ s, JObject.to_string (fun _ => "0")
        (JObject.of_dict [("a", JObject.of_list
          [JObject.of_dict [("b", JObject.of_int 1)], JObject.of_str "s"])]) = .ok s ∧
      brackets_match s.data [] = true ∧
      s.data.count '[' = 1 ∧ s.data.count ']' = 1 ∧
      s.data.count '{' = 2 ∧ s.data.count '}' = 2 ∧
      no_bad_comma s.data :=
  ⟨rfl, C13_balanced_brackets (fun _ => "0")
    (JObject.of_dict [("a", JObject.of_list
      [JObject.of_dict [("b", JObject.of_int 1)], JObject.of_str "s"])])
    (fun _ => ⟨(by decide : ("0" : String) ≠ ""), (by decide : plain "0")⟩)
    (by simp [JObject.invariant, JObject.every, every_element, every_entry,
      JObject.kind_matches, JObject.of_dict, JObject.Dict, JObject.of_list, JObject.List,
      JObject.of_int, JObject.Int, JObject.of_str, JObject.Str, JObject.m_value,
      JObject.m_type])
    (by
      simp only [JObject.texts_satisfy, JObject.every, every_element, every_entry,
        JObject.of_dict, JObject.Dict, JObject.of_list, JObject.List,
        JObject.of_int, JObject.Int, JObject.of_str, JObject.Str, JObject.m_value,
        JObject.m_type]
      refine ⟨by simp, ⟨by decide, by simp, ⟨by simp, ⟨by decide, by simp⟩, trivial⟩, ?_, trivial⟩,
        trivial⟩
      intro s hs
      simp only [JObject.mk.injEq, value_t.str.injEq, true_and] at hs
      subst hs
      decide)⟩

/-! ## JSON texts -/

theorem ws_count (w : List Char) (h : json_ws w) (q : Char) (hq : ¬ is_ws q) : w.count q = 0 := by
  rw [List.count_eq_zero]
  exact fun hm => hq (h q hm)

theorem digit_ne_quote (c : Char) (h : is_digit c) : c ≠ '"' := by
  rintro rfl
  exact absurd h.1 (by decide)

theorem digits_count (ds : List Char) (h : ∀ c ∈ ds, is_digit c) : ds.count '"' = 0 := by
  rw [List.count_eq_zero]
  exact fun hm => digit_ne_quote _ (h _ hm) rfl

theorem number_count (cs : List Char) (h : json_number cs) : cs.count '"' = 0 := by
  obtain ⟨minus, int, frac, exp, rfl, hm, hi, hf, he⟩ := h
  have h1 : minus.count '"' = 0 := by rcases hm with rfl | rfl <;> decide
  have h2 : int.count '"' = 0 := by
    rcases hi with rfl | ⟨d, ds, rfl, hd, hds⟩
    · decide
    · rw [List.count_cons, digits_count ds hds]
      have : d ≠ '"' := by rintro rfl; exact absurd hd.1 (by decide)
      simp [this]
  have h3 : frac.count '"' = 0 := by
    rcases hf with rfl | ⟨ds, rfl, _, hds⟩
    · rfl
    · rw [List.count_cons, digits_count ds hds]; decide
  have h4 : exp.count '"' = 0 := by
    rcases he with rfl | ⟨e, sign, ds, rfl, he, hs, _, hds⟩
    · rfl
    · have hs' : sign.count '"' = 0 := by rcases hs with rfl | rfl | rfl <;> decide
      rw [List.count_cons, List.count_append, digits_count ds hds, hs']
      rcases he with rfl | rfl <;> decide
  simp [List.count_append, h1, h2, h3, h4]

theorem string_count (cs : List Char) (h : json_string cs) (hb : '\\' ∉ cs) :
    cs.count '"' = 2 := by
  obtain ⟨items, hitems, rfl⟩ := h
  have hj : items.flatten.count '"' = 0 := by
    rw [List.count_eq_zero]
    intro hm
    obtain ⟨it, hit, hq⟩ := List.mem_flatten.1 hm
    have hbs : '\\' ∉ it := by
      intro hc
      apply hb
      exact List.mem_cons_of_mem _ (List.mem_append_left _ (List.mem_flatten.2 ⟨it, hit, hc⟩))
    rcases hitems it hit with ⟨c, rfl, hc⟩ | ⟨c, rfl, _⟩ | ⟨h1, h2, h3, h4, rfl, _⟩
    · simp only [List.mem_singleton] at hq
      exact hc.2.1 hq.symm
    · exact hbs (List.mem_cons_self _ _)
    · exact hbs (List.mem_cons_self _ _)
  simp [List.count_cons, List.count_append, hj]

theorem mem_join_comma (items : List (List Char)) (t : List Char) (ht : t ∈ items) (c : Char)
    (hc : c ∈ t) : c ∈ join_comma items := by
  induction items with
  | nil => simp at ht
  | cons a items ih =>
    cases items with
    | nil =>
      simp only [List.mem_singleton] at ht
      subst ht
      exact hc
    | cons b rest =>
      simp only [join_comma, List.mem_append, List.mem_cons]
      rcases List.mem_cons.1 ht with rfl | ht
      · exact Or.inl hc
      · exact Or.inr (Or.inr (ih ht))

theorem join_comma_even (items : List (List Char))
    (h : ∀ t ∈ items, Even (t.count '"')) : Even ((join_comma items).count '"') := by
  induction items with
  | nil => simp [join_comma]
  | cons a items ih =>
    cases items with
    | nil => exact h a (List.mem_cons_self _ _)
    | cons b rest =>
      simp only [join_comma, List.count_append, List.count_cons]
      have h1 := h a (List.mem_cons_self _ _)
      have h2 := ih (fun t ht => h t (List.mem_cons_of_mem _ ht))
      simp only [join_comma] at h2
      simpa using h1.add h2

/-- In a JSON text without a backslash the double quotes come in pairs. -/
theorem json_text_quotes_even (cs : List Char) (h : json_text cs) :
    '\\' ∉ cs → Even (cs.count '"') := by
  induction h with
  | lit_null => intro _; decide
  | lit_true => intro _; decide
  | lit_false => intro _; decide
  | number cs h => intro _; rw [number_count cs h]; exact even_zero
  | string cs h => intro hb; rw [string_count cs h hb]; decide
  | array_empty w hw =>
    intro _
    simp [List.count_cons, List.count_append, ws_count w hw '"' (by decide)]
  | array items _ _ ih =>
    intro hb
    have : Even ((join_comma items).count '"') := by
      apply join_comma_even
      intro t ht
      apply ih t ht
      intro hc
      exact hb (List.mem_cons_of_mem _ (List.mem_append_left _ (mem_join_comma items t ht _ hc)))
    simpa [List.count_cons, List.count_append] using this
  | object_empty w hw =>
    intro _
    simp [List.count_cons, List.count_append, ws_count w hw '"' (by decide)]
  | object members _ hkeys _ ih =>
    intro hb
    have : Even ((join_comma (members.map (fun m => m.1 ++ ':' :: m.2))).count '"') := by
      apply join_comma_even
      intro t ht
      obtain ⟨m, hm, rfl⟩ := List.mem_map.1 ht
      have hbm : '\\' ∉ m.1 ++ ':' :: m.2 := by
        intro hc
        exact hb (List.mem_cons_of_mem _ (List.mem_append_left _
          (mem_join_comma _ _ ht _ hc)))
      have hv : Even (m.2.count '"') := by
        apply ih m hm
        intro hc
        exact hbm (List.mem_append_right _ (List.mem_cons_of_mem _ hc))
      obtain ⟨w1, s, w2, hw1, hs, hw2, hk⟩ := hkeys m hm
      have hks : '\\' ∉ s := by
        intro hc
        apply hbm
        rw [hk]
        exact List.mem_append_left _ (List.mem_append_left _ (List.mem_append_right _ hc))
      have hkc : m.1.count '"' = 2 := by
        rw [hk]
        simp [List.count_append, ws_count w1 hw1 '"' (by decide),
          ws_count w2 hw2 '"' (by decide), string_count s hs hks]
      simp only [List.count_append, List.count_cons, hkc]
      simpa using (show Even 2 by decide).add hv
    simpa [List.count_cons, List.count_append] using this
  | pad w1 cs w2 hw1 hw2 _ ih =>
    intro hb
    have := ih (fun hc => hb (List.mem_append_left _ (List.mem_append_right _ hc)))
    simpa [List.count_append, ws_count w1 hw1 '"' (by decide),
      ws_count w2 hw2 '"' (by decide)] using this


theorem char_le_iff (a b : Char) : a ≤ b ↔ a.toNat ≤ b.toNat := by
  rfl

theorem one_le_of_ne_zero (d : Char) (h : '0' ≤ d) (hne : d ≠ '0') : '1' ≤ d := by
  rw [char_le_iff] at h ⊢
  have h0 : ('0' : Char).toNat = 48 := rfl
  have h1 : ('1' : Char).toNat = 49 := rfl
  rw [h0] at h
  rw [h1]
  by_contra hc
  apply hne
  have : d.toNat = 48 := by omega
  apply Char.ext
  apply UInt32.ext
  exact this

theorem digit_run_json_int (n : Nat) (ds : List Char) (h : digit_run n ds) : json_int ds := by
  obtain ⟨_, hne, hhead, hdig⟩ := h
  cases ds with
  | nil => exact absurd rfl hne
  | cons d rest =>
    by_cases hd : d = '0'
    · left
      exact hhead (by simp [hd])
    · right
      have hd' := hdig d (List.mem_cons_self _ _)
      exact ⟨d, rest, rfl, ⟨one_le_of_ne_zero d hd'.1 hd, hd'.2⟩,
        fun c hc => hdig c (List.mem_cons_of_mem _ hc)⟩

/-- The stream rendering of an `int` is a JSON number. -/
theorem os_int_json_number (i : Int) : json_number (os_int i).data := by
  obtain ⟨ds, hrun, hdata⟩ := os_int_canonical i
  have hint := digit_run_json_int _ ds hrun
  by_cases hi : i < 0
  · refine ⟨['-'], ds, [], [], ?_, Or.inr rfl, hint, Or.inl rfl, Or.inl rfl⟩
    simp [hdata, hi]
  · refine ⟨[], ds, [], [], ?_, Or.inl rfl, hint, Or.inl rfl, Or.inl rfl⟩
    simp [hdata, hi]

theorem flatten_singletons (l : List Char) : (l.map (fun c => [c])).flatten = l := by
  induction l with
  | nil => rfl
  | cons c l ih => simp [ih]

/-- A text without characters that need escaping, between double quotes, is a
JSON string. -/
theorem quoted_json_string (s : String) (h : unescaped s) :
    json_string ('"' :: (s.data ++ ['"'])) := by
  refine ⟨s.data.map (fun c => [c]), ?_, by rw [flatten_singletons]⟩
  intro it hit
  obtain ⟨c, hc, rfl⟩ := List.mem_map.1 hit
  exact Or.inl ⟨c, rfl, h c hc⟩

theorem forall₂_right {α β : Type} (R : α → β → Prop) (Q : β → Prop) (l : List α)
    (bs : List β) (h : List.Forall₂ R l bs) (hq : ∀ a b, R a b → Q b) : ∀ b ∈ bs, Q b := by
  induction h with
  | nil => intro b hb; simp at hb
  | @cons a b l bs hab _ ih =>
    intro b' hb'
    rcases List.mem_cons.1 hb' with rfl | hb'
    · exact hq a _ hab
    · exact ih b' hb'

theorem dict_members (d : dict_t) (ss : List String)
    (h : List.Forall₂ (fun (kv : String × JObject) s => unescaped kv.1 ∧ json_text s.data) d ss) :
    ∃ members : List (List Char × List Char),
      (List.zipWith (fun kv s => entry_text kv.1 s) d ss).map String.data
        = members.map (fun m => m.1 ++ ':' :: m.2) ∧
      (∀ m ∈ members, json_key m.1) ∧ (∀ m ∈ members, json_text m.2) ∧
      (d ≠ [] → members ≠ []) := by
  induction h with
  | nil => exact ⟨[], rfl, by simp, by simp, by simp⟩
  | @cons kv s d ss hkv _ ih =>
    obtain ⟨members, h1, h2, h3, _⟩ := ih
    refine ⟨('"' :: (kv.1.data ++ ['"']), s.data) :: members, ?_, ?_, ?_, by simp⟩
    · rw [List.zipWith_cons_cons, List.map_cons, List.map_cons, h1]
      congr 1
      simp [entry_text, String.data_append]
    · intro m hm
      rcases List.mem_cons.1 hm with rfl | hm
      · exact ⟨[], _, [], by simp [json_ws], quoted_json_string kv.1 hkv.1, by simp [json_ws],
          by simp⟩
      · exact h2 m hm
    · intro m hm
      rcases List.mem_cons.1 hm with rfl | hm
      · exact hkv.2
      · exact h3 m hm

/-- The text of a Value tree is a JSON text when no STRING payload and no dict
key holds a character that needs escaping and the rendering used for doubles
gives a JSON number on every DOUBLE payload of the tree. -/
theorem to_string_json (dbl : double_t → String) (x : JObject) :
    x.invariant → x.texts_satisfy unescaped →
    x.doubles_satisfy (fun f => json_number (dbl f).data) →
      ∃ s, JObject.to_string dbl x = .ok s ∧ json_text s.data := by
  induction x using tree_induction with
  | node t v hl hd =>
    intro hinv htxt hdbl
    have hk := invariant_kind _ hinv
    cases t <;> cases v <;> simp only [JObject.kind_matches] at hk
    · exact ⟨"null", rfl, json_text.lit_null⟩
    · rename_i b
      cases b
      · exact ⟨"false", rfl, json_text.lit_false⟩
      · exact ⟨"true", rfl, json_text.lit_true⟩
    · rename_i i
      exact ⟨os_int i, rfl, json_text.number _ (os_int_json_number i)⟩
    · rename_i f
      exact ⟨dbl f, rfl, json_text.number _ (every_node _ _ _ hdbl f rfl)⟩
    · rename_i s
      refine ⟨"\x22" ++ s ++ "\x22", rfl, json_text.string _ ?_⟩
      have := quoted_json_string s (texts_satisfy_str unescaped s htxt)
      simpa [String.data_append] using this
    · rename_i l
      have hall : ∀ e ∈ l, ∃ s, JObject.to_string dbl e = .ok s ∧ json_text s.data :=
        fun e he => hl l rfl e he ((invariant_list_iff l).1 hinv e he)
          (texts_satisfy_list unescaped _ l htxt e he)
          (((every_list _ _ _ l).1 hdbl).2 e he)
      obtain ⟨ss, hss⟩ := forall₂_of_forall_exists _ l hall
      refine ⟨_, to_string_list_eq dbl l ss (hss.imp (fun _ _ h => h.1)), ?_⟩
      have hdata : ("[" ++ ",".intercalate ss ++ "]").data
          = '[' :: (join_comma (ss.map String.data) ++ [']']) := by
        simp [String.data_append, intercalate_data]
      rw [hdata]
      by_cases hne : ss = []
      · subst hne
        exact json_text.array_empty [] (by simp [json_ws])
      · refine json_text.array _ (by simpa using hne) ?_
        intro t ht
        obtain ⟨s, hs, rfl⟩ := List.mem_map.1 ht
        exact forall₂_right _ (fun s => json_text s.data) l ss hss (fun _ _ h => h.2) s hs
    · rename_i d
      have hall : ∀ kv ∈ d, ∃ s, JObject.to_string dbl kv.2 = .ok s ∧
          (unescaped kv.1 ∧ json_text s.data) := by
        intro kv hkv
        have hq := texts_satisfy_dict unescaped _ d htxt kv hkv
        obtain ⟨s, h1, h2⟩ := hd d rfl kv hkv ((invariant_dict_iff d).1 hinv kv hkv) hq.2
          (((every_dict _ _ _ d).1 hdbl).2 kv hkv).2
        exact ⟨s, h1, hq.1, h2⟩
      obtain ⟨ss, hss⟩ := forall₂_of_forall_exists _ d hall
      refine ⟨_, to_string_dict_eq dbl d ss (hss.imp (fun _ _ h => h.1)), ?_⟩
      obtain ⟨members, hm1, hm2, hm3, hm4⟩ := dict_members d ss (hss.imp (fun _ _ h => h.2))
      have hdata : ("\x7b" ++ ",".intercalate
            (List.zipWith (fun kv s => entry_text kv.1 s) d ss) ++ "\x7d").data
          = '{' :: (join_comma (members.map (fun m => m.1 ++ ':' :: m.2)) ++ ['}']) := by
        simp [String.data_append, intercalate_data, hm1]
      rw [hdata]
      by_cases hne : d = []
      · subst hne
        cases hss
        have : members = [] := by
          cases members with
          | nil => rfl
          | cons m ms => simp at hm1
        subst this
        exact json_text.object_empty [] (by simp [json_ws])
      · exact json_text.object members (hm4 hne) hm2 hm3

/-! ## Injectivity of serialization -/

theorem join_comma_rest (close : Char) (ss : List (List Char)) : ∀ (s r : List Char),
    join_comma (s :: ss) ++ close :: r = s ++ rest_text close ss r := by
  induction ss with
  | nil => intro s r; simp [join_comma, rest_text]
  | cons t ss ih =>
    intro s r
    simp only [join_comma, rest_text, List.append_assoc, List.cons_append]
    rw [← ih t r]

theorem rest_text_delimited (close : Char) (hc : close = ']' ∨ close = '}')
    (ss : List (List Char)) (r : List Char) : delimited (rest_text close ss r) := by
  cases ss with
  | nil => exact Or.inr ⟨close, r, rfl, Or.inr hc⟩
  | cons s ss => exact Or.inr ⟨',', _, rfl, Or.inl rfl⟩

/-- Two texts made of characters satisfying `p`, each followed by nothing or by a
character that does not satisfy `p`, are equal when the whole texts are. -/
theorem span_unique (p : Char → Prop) : ∀ (a b r1 r2 : List Char),
    (∀ c ∈ a, p c) → (∀ c ∈ b, p c) → (∀ c, r1.head? = some c → ¬ p c) →
    (∀ c, r2.head? = some c → ¬ p c) → a ++ r1 = b ++ r2 → a = b ∧ r1 = r2 := by
  intro a
  induction a with
  | nil =>
    intro b r1 r2 _ hb h1 _ h
    cases b with
    | nil => exact ⟨rfl, h⟩
    | cons c b =>
      exfalso
      simp only [List.nil_append, List.cons_append] at h
      exact h1 c (by rw [h]; rfl) (hb c (List.mem_cons_self _ _))
  | cons c a ih =>
    intro b r1 r2 ha hb h1 h2 h
    cases b with
    | nil =>
      exfalso
      simp only [List.nil_append, List.cons_append] at h
      exact h2 c (by rw [← h]; rfl) (ha c (List.mem_cons_self _ _))
    | cons d b =>
      simp only [List.cons_append, List.cons.injEq] at h
      obtain ⟨rfl, h⟩ := h
      obtain ⟨rfl, hr⟩ := ih b r1 r2 (fun c' hc' => ha c' (List.mem_cons_of_mem _ hc'))
        (fun c' hc' => hb c' (List.mem_cons_of_mem _ hc')) h1 h2 h
      exact ⟨rfl, hr⟩

/-- A text is cut at the first occurrence of a character in one way only. -/
theorem split_unique (q : Char) : ∀ (a b r1 r2 : List Char), q ∉ a → q ∉ b →
    a ++ q :: r1 = b ++ q :: r2 → a = b ∧ r1 = r2 := by
  intro a
  induction a with
  | nil =>
    intro b r1 r2 _ hb h
    cases b with
    | nil => simpa using h
    | cons c b =>
      exfalso
      simp only [List.nil_append, List.cons_append, List.cons.injEq] at h
      exact hb (by rw [h.1]; exact List.mem_cons_self _ _)
  | cons c a ih =>
    intro b r1 r2 ha hb h
    cases b with
    | nil =>
      exfalso
      simp only [List.nil_append, List.cons_append, List.cons.injEq] at h
      exact ha (by rw [h.1]; exact List.mem_cons_self _ _)
    | cons d b =>
      simp only [List.cons_append, List.cons.injEq] at h
      obtain ⟨rfl, h⟩ := h
      obtain ⟨rfl, hr⟩ := ih b r1 r2 (fun hm => ha (List.mem_cons_of_mem _ hm))
        (fun hm => hb (List.mem_cons_of_mem _ hm)) h
      exact ⟨rfl, hr⟩

theorem delimited_head (r : List Char) (h : delimited r) (c : Char)
    (hc : r.head? = some c) : c = ',' ∨ c = ']' ∨ c = '}' := by
  rcases h with rfl | ⟨d, r', rfl, hd⟩
  · simp at hc
  · simp only [List.head?_cons, Option.some.injEq] at hc
    rw [← hc]; exact hd

theorem os_int_chars (i : Int) : ∀ c ∈ (os_int i).data, c = '-' ∨ is_digit c := by
  obtain ⟨ds, ⟨_, _, _, hdig⟩, hdata⟩ := os_int_canonical i
  intro c hc
  rw [hdata] at hc
  split_ifs at hc
  · rcases List.mem_cons.1 hc with rfl | hc
    · exact Or.inl rfl
    · exact Or.inr (hdig c hc)
  · exact Or.inr (hdig c hc)

/-- Different integers have different decimal texts. -/
theorem os_int_injective (i j : Int) (h : os_int i = os_int j) : i = j := by
  obtain ⟨ds, ⟨hv, hne, _, hdig⟩, hdata⟩ := os_int_canonical i
  obtain ⟨ds', ⟨hv', hne', _, hdig'⟩, hdata'⟩ := os_int_canonical j
  rw [h, hdata'] at hdata
  have hminus : ∀ l : List Char, l ≠ [] → (∀ c ∈ l, is_digit c) → ∀ t, l ≠ '-' :: t := by
    intro l _ hl t e
    have := hl '-' (by rw [e]; exact List.mem_cons_self _ _)
    exact absurd this.1 (by decide)
  by_cases hi : i < 0 <;> by_cases hj : j < 0 <;> simp only [hi, hj, if_true, if_false] at hdata
  · simp only [List.cons.injEq, true_and] at hdata
    rw [hdata, hv] at hv'
    omega
  · exact absurd hdata (hminus ds' hne' hdig' _)
  · exact absurd hdata.symm (hminus ds hne hdig _)
  · rw [hdata, hv] at hv'
    omega

/-- The items after the first one of a list or dict text are read back in one way
only, when each item is. -/
theorem rest_unique {α : Type} (T : α → String → Prop) (OK : α → Prop) (close : Char)
    (hclose : close = ']' ∨ close = '}') :
    ∀ l1 : List α,
      (∀ a ∈ l1, ∀ (a2 : α) (s1 s2 : String) (r1 r2 : List Char), OK a → OK a2 → T a s1 →
        T a2 s2 → delimited r1 → delimited r2 → s1.data ++ r1 = s2.data ++ r2 →
        a = a2 ∧ r1 = r2) →
      ∀ (l2 : List α) (ss1 ss2 : List String) (r1 r2 : List Char),
        (∀ a ∈ l1, OK a) → (∀ a ∈ l2, OK a) → List.Forall₂ T l1 ss1 → List.Forall₂ T l2 ss2 →
        rest_text close (ss1.map String.data) r1 = rest_text close (ss2.map String.data) r2 →
        l1 = l2 ∧ r1 = r2 := by
  have hne : close ≠ ',' := by rcases hclose with rfl | rfl <;> decide
  intro l1
  induction l1 with
  | nil =>
    intro _ l2 ss1 ss2 r1 r2 _ _ h1 h2 h
    cases h1
    cases h2 with
    | nil =>
      simp only [List.map_nil, rest_text, List.cons.injEq, true_and] at h
      exact ⟨rfl, h⟩
    | cons _ _ =>
      simp only [List.map_nil, List.map_cons, rest_text, List.cons.injEq] at h
      exact absurd h.1 hne
  | cons a l1 ih =>
    intro hitem l2 ss1 ss2 r1 r2 hok1 hok2 h1 h2 h
    cases h1 with
    | @cons _ s1 _ st1 hs1 hrest1 =>
      cases h2 with
      | nil =>
        simp only [List.map_nil, List.map_cons, rest_text, List.cons.injEq] at h
        exact absurd h.1.symm hne
      | @cons a2 s2 l2 st2 hs2 hrest2 =>
        simp only [List.map_cons, rest_text, List.cons.injEq, true_and] at h
        obtain ⟨rfl, hr⟩ := hitem a (List.mem_cons_self _ _) a2 s1 s2 _ _
          (hok1 a (List.mem_cons_self _ _)) (hok2 a2 (List.mem_cons_self _ _)) hs1 hs2
          (rest_text_delimited close hclose _ _) (rest_text_delimited close hclose _ _) h
        obtain ⟨rfl, hr'⟩ := ih (fun b hb => hitem b (List.mem_cons_of_mem _ hb)) l2 st1 st2
          r1 r2 (fun b hb => hok1 b (List.mem_cons_of_mem _ hb))
          (fun b hb => hok2 b (List.mem_cons_of_mem _ hb)) hrest1 hrest2 hr
        exact ⟨rfl, hr'⟩

/-- The items of a list or dict text are read back in one way only, when each
item is and no item text starts with a comma or the closer. -/
theorem items_unique {α : Type} (T : α → String → Prop) (OK : α → Prop) (close : Char)
    (hclose : close = ']' ∨ close = '}')
    (hlead : ∀ a s, OK a → T a s → ∃ c rest, s.data = c :: rest ∧ c ≠ close)
    (l1 : List α)
    (hitem : ∀ a ∈ l1, ∀ (a2 : α) (s1 s2 : String) (r1 r2 : List Char), OK a → OK a2 →
      T a s1 → T a2 s2 → delimited r1 → delimited r2 → s1.data ++ r1 = s2.data ++ r2 →
      a = a2 ∧ r1 = r2)
    (l2 : List α) (ss1 ss2 : List String) (r1 r2 : List Char)
    (hok1 : ∀ a ∈ l1, OK a) (hok2 : ∀ a ∈ l2, OK a)
    (h1 : List.Forall₂ T l1 ss1) (h2 : List.Forall₂ T l2 ss2)
    (h : join_comma (ss1.map String.data) ++ close :: r1
      = join_comma (ss2.map String.data) ++ close :: r2) :
    l1 = l2 ∧ r1 = r2 := by
  cases h1 with
  | nil =>
    cases h2 with
    | nil =>
      simp only [List.map_nil, join_comma, List.nil_append, List.cons.injEq, true_and] at h
      exact ⟨rfl, h⟩
    | @cons a2 s2 l2 st2 hs2 _ =>
      exfalso
      obtain ⟨c, rest, hc, hcc⟩ := hlead a2 s2 (hok2 a2 (List.mem_cons_self _ _)) hs2
      rw [List.map_cons, join_comma_rest, hc] at h
      simp only [List.map_nil, join_comma, List.nil_append, List.cons_append,
        List.cons.injEq] at h
      exact hcc h.1.symm
  | @cons a s1 l1 st1 hs1 hrest1 =>
    cases h2 with
    | nil =>
      exfalso
      obtain ⟨c, rest, hc, hcc⟩ := hlead a s1 (hok1 a (List.mem_cons_self _ _)) hs1
      rw [List.map_cons, join_comma_rest, hc] at h
      simp only [List.map_nil, join_comma, List.nil_append, List.cons_append,
        List.cons.injEq] at h
      exact hcc h.1
    | @cons a2 s2 l2 st2 hs2 hrest2 =>
      rw [List.map_cons, List.map_cons, join_comma_rest, join_comma_rest] at h
      obtain ⟨rfl, hr⟩ := hitem a (List.mem_cons_self _ _) a2 s1 s2 _ _
        (hok1 a (List.mem_cons_self _ _)) (hok2 a2 (List.mem_cons_self _ _)) hs1 hs2
        (rest_text_delimited close hclose _ _) (rest_text_delimited close hclose _ _) h
      obtain ⟨rfl, hr'⟩ := rest_unique T OK close hclose l1
        (fun b hb => hitem b (List.mem_cons_of_mem _ hb)) l2 st1 st2 r1 r2
        (fun b hb => hok1 b (List.mem_cons_of_mem _ hb))
        (fun b hb => hok2 b (List.mem_cons_of_mem _ hb)) hrest1 hrest2 hr
      exact ⟨rfl, hr'⟩

theorem readable_list (t : TYPE) (l : list_t) (h : JObject.readable ⟨t, .list l⟩) :
    ∀ e ∈ l, e.readable := by
  intro e he
  exact ⟨((every_list _ _ t l).1 h.1).2 e he, texts_satisfy_list _ t l h.2.1 e he,
    ((every_list _ _ t l).1 h.2.2).2 e he⟩

theorem readable_dict (t : TYPE) (d : dict_t) (h : JObject.readable ⟨t, .dict d⟩) :
    ∀ kv ∈ d, quote_free kv.1 ∧ kv.2.readable := by
  intro kv hkv
  have h2 := texts_satisfy_dict _ t d h.2.1 kv hkv
  exact ⟨h2.1, (((every_dict _ _ t d).1 h.1).2 kv hkv).2, h2.2,
    (((every_dict _ _ t d).1 h.2.2).2 kv hkv).2⟩

theorem to_string_list_form (dbl : double_t → String) (l : list_t)
    (h : ∀ e ∈ l, e.invariant) :
    ∃ ss, List.Forall₂ (fun e s => JObject.to_string dbl e = .ok s) l ss ∧
      JObject.to_string dbl ⟨T_LIST, .list l⟩ = .ok ("[" ++ ",".intercalate ss ++ "]") := by
  obtain ⟨ss, hss⟩ := forall₂_of_forall_exists _ l
    (fun e he => to_string_total dbl e (invariant_deep_consistent e (h e he)))
  exact ⟨ss, hss, to_string_list_eq dbl l ss hss⟩

theorem to_string_dict_form (dbl : double_t → String) (d : dict_t)
    (h : ∀ kv ∈ d, kv.2.invariant) :
    ∃ ss, List.Forall₂ (fun kv s => JObject.to_string dbl kv.2 = .ok s) d ss ∧
      JObject.to_string dbl ⟨T_DICT, .dict d⟩
        = .ok ("\x7b" ++ ",".intercalate (List.zipWith (fun kv s => entry_text kv.1 s) d ss)
            ++ "\x7d") := by
  obtain ⟨ss, hss⟩ := forall₂_of_forall_exists
    (fun (kv : String × JObject) s => JObject.to_string dbl kv.2 = .ok s) d
    (fun kv hkv => to_string_total dbl kv.2 (invariant_deep_consistent kv.2 (h kv hkv)))
  exact ⟨ss, hss, to_string_dict_eq dbl d ss hss⟩

theorem kind_of_lead_digit (d : Char) (h : is_digit d) : kind_of_lead d = some T_INT := by
  have h1 : d ≠ 'n' := by rintro rfl; exact absurd h.2 (by decide)
  have h2 : d ≠ 't' := by rintro rfl; exact absurd h.2 (by decide)
  have h3 : d ≠ 'f' := by rintro rfl; exact absurd h.2 (by decide)
  simp [kind_of_lead, h1, h2, h3, h]

theorem lead_not_delimiter (c : Char) (t : TYPE) (h : kind_of_lead c = some t) :
    c ≠ ',' ∧ c ≠ ']' ∧ c ≠ '}' := by
  refine ⟨?_, ?_, ?_⟩ <;> (rintro rfl; cases t <;> revert h <;> decide)

/-- The first character of the text of a Value tells its kind. -/
theorem lead_char (dbl : double_t → String) (x : JObject) (s : String) (hx : x.readable)
    (hs : JObject.to_string dbl x = .ok s) :
    ∃ c rest, s.data = c :: rest ∧ kind_of_lead c = some x.m_type := by
  obtain ⟨t, v⟩ := x
  have hk := invariant_kind _ hx.1
  cases t <;> cases v <;> simp only [JObject.kind_matches] at hk
  · simp only [JObject.to_string, Except.ok.injEq] at hs
    subst hs
    exact ⟨'n', _, rfl, rfl⟩
  · rename_i b
    simp only [JObject.to_string, Except.ok.injEq] at hs
    subst hs
    cases b
    · exact ⟨'f', _, rfl, rfl⟩
    · exact ⟨'t', _, rfl, rfl⟩
  · rename_i i
    simp only [JObject.to_string, Except.ok.injEq] at hs
    subst hs
    obtain ⟨ds, ⟨_, hne, _, hdig⟩, hdata⟩ := os_int_canonical i
    by_cases hi : i < 0
    · exact ⟨'-', ds, by simp [hdata, hi], rfl⟩
    · cases ds with
      | nil => exact absurd rfl hne
      | cons d rest =>
        exact ⟨d, rest, by simp [hdata, hi],
          kind_of_lead_digit d (hdig d (List.mem_cons_self _ _))⟩
  · rename_i f
    exact absurd (every_node _ _ _ hx.2.2 f rfl) id
  · rename_i str
    simp only [JObject.to_string, Except.ok.injEq] at hs
    subst hs
    exact ⟨'"', str.data ++ ['"'], by simp [String.data_append], rfl⟩
  · rename_i l
    obtain ⟨ss, _, hform⟩ := to_string_list_form dbl l ((invariant_list_iff l).1 hx.1)
    rw [hform, Except.ok.injEq] at hs
    subst hs
    exact ⟨'[', (",".intercalate ss).data ++ [']'], by simp [String.data_append], rfl⟩
  · rename_i d
    obtain ⟨ss, _, hform⟩ := to_string_dict_form dbl d ((invariant_dict_iff d).1 hx.1)
    rw [hform, Except.ok.injEq] at hs
    subst hs
    exact ⟨'{', (",".intercalate (List.zipWith (fun kv s => entry_text kv.1 s) d ss)).data
      ++ ['}'], by simp [String.data_append], rfl⟩

theorem entries_forall₂ (dbl : double_t → String) (d : dict_t) (ss : List String)
    (h : List.Forall₂ (fun kv s => JObject.to_string dbl kv.2 = .ok s) d ss) :
    List.Forall₂ (fun (kv : String × JObject) t =>
        ∃ sv, JObject.to_string dbl kv.2 = .ok sv ∧ t = entry_text kv.1 sv)
      d (List.zipWith (fun kv s => entry_text kv.1 s) d ss) := by
  induction h with
  | nil => exact List.Forall₂.nil
  | @cons kv s d ss hkv _ ih => exact List.Forall₂.cons ⟨s, hkv, rfl⟩ ih

/-- The text of a readable Value, followed by nothing or by a comma or closer,
is the text of no other readable Value followed that way. -/
theorem to_string_unique (dbl : double_t → String) (x : JObject) :
    x.readable → ∀ (y : JObject) (sx sy : String) (r1 r2 : List Char), y.readable →
      JObject.to_string dbl x = .ok sx → JObject.to_string dbl y = .ok sy →
      delimited r1 → delimited r2 → sx.data ++ r1 = sy.data ++ r2 → x = y ∧ r1 = r2 := by
  induction x using tree_induction with
  | node t v hl hd =>
    intro hx y sx sy r1 r2 hy hsx hsy hr1 hr2 heq
    obtain ⟨c1, rest1, hc1, hk1⟩ := lead_char dbl _ sx hx hsx
    obtain ⟨c2, rest2, hc2, hk2⟩ := lead_char dbl y sy hy hsy
    have hcc : c1 = c2 := by
      rw [hc1, hc2] at heq
      simp only [List.cons_append, List.cons.injEq] at heq
      exact heq.1
    obtain ⟨t', v'⟩ := y
    have htype : t' = t := by
      rw [hcc, hk2] at hk1
      exact Option.some.inj hk1
    subst htype
    have hkx := invariant_kind _ hx.1
    have hky := invariant_kind _ hy.1
    cases t' <;> cases v <;> simp only [JObject.kind_matches] at hkx <;>
      cases v' <;> simp only [JObject.kind_matches] at hky
    · -- NULL
      subst hkx hky
      simp only [JObject.to_string, Except.ok.injEq] at hsx hsy
      subst hsx hsy
      exact ⟨rfl, List.append_cancel_left heq⟩
    · -- BOOL
      rename_i b b'
      simp only [JObject.to_string, Except.ok.injEq] at hsx hsy
      subst hsx hsy
      cases b <;> cases b'
      · exact ⟨rfl, List.append_cancel_left heq⟩
      · have heq' : 'f' :: (['a', 'l', 's', 'e'] ++ r1) = 't' :: (['r', 'u', 'e'] ++ r2) := heq
        exact absurd (List.cons.inj heq').1 (by decide)
      · have heq' : 't' :: (['r', 'u', 'e'] ++ r1) = 'f' :: (['a', 'l', 's', 'e'] ++ r2) := heq
        exact absurd (List.cons.inj heq').1 (by decide)
      · exact ⟨rfl, List.append_cancel_left heq⟩
    · -- INT
      rename_i i j
      simp only [JObject.to_string, Except.ok.injEq] at hsx hsy
      subst hsx hsy
      have hdel : ∀ r : List Char, delimited r → ∀ c, r.head? = some c →
          ¬ (c = '-' ∨ is_digit c) := by
        intro r hr c hc
        rcases delimited_head r hr c hc with rfl | rfl | rfl <;> decide
      obtain ⟨hd1, hr⟩ := span_unique (fun c => c = '-' ∨ is_digit c) _ _ r1 r2
        (os_int_chars i) (os_int_chars j) (hdel r1 hr1) (hdel r2 hr2) heq
      have := os_int_injective i j (String.ext hd1)
      subst this
      exact ⟨rfl, hr⟩
    · -- DOUBLE
      rename_i f _
      exact absurd (every_node _ _ _ hx.2.2 f rfl) id
    · -- STRING
      rename_i s s'
      simp only [JObject.to_string, Except.ok.injEq] at hsx hsy
      subst hsx hsy
      have hq := texts_satisfy_str quote_free s hx.2.1
      have hq' := texts_satisfy_str quote_free s' hy.2.1
      have heq' : '"' :: (s.data ++ '"' :: r1) = '"' :: (s'.data ++ '"' :: r2) := by
        simpa [String.data_append] using heq
      obtain ⟨hd1, hr⟩ := split_unique '"' _ _ r1 r2 hq hq' (List.cons.inj heq').2
      have : s = s' := String.ext hd1
      subst this
      exact ⟨rfl, hr⟩
    · -- LIST
      rename_i l l'
      obtain ⟨ss, hss, hform⟩ := to_string_list_form dbl l ((invariant_list_iff l).1 hx.1)
      obtain ⟨ss', hss', hform'⟩ := to_string_list_form dbl l' ((invariant_list_iff l').1 hy.1)
      rw [hform, Except.ok.injEq] at hsx
      rw [hform', Except.ok.injEq] at hsy
      subst hsx hsy
      have heq' : join_comma (ss.map String.data) ++ ']' :: r1
          = join_comma (ss'.map String.data) ++ ']' :: r2 := by
        simpa [String.data_append, intercalate_data] using heq
      obtain ⟨hll, hr⟩ := items_unique (fun e s => JObject.to_string dbl e = .ok s)
        JObject.readable ']' (Or.inl rfl)
        (by
          intro a s ha hs
          obtain ⟨c, rest, hc, hkc⟩ := lead_char dbl a s ha hs
          exact ⟨c, rest, hc, (lead_not_delimiter c _ hkc).2.1⟩)
        l
        (fun a ha a2 s1 s2 q1 q2 oka oka2 t1 t2 d1 d2 e =>
          hl l rfl a ha oka a2 s1 s2 q1 q2 oka2 t1 t2 d1 d2 e)
        l' ss ss' r1 r2 (readable_list _ l hx) (readable_list _ l' hy) hss hss' heq'
      subst hll
      exact ⟨rfl, hr⟩
    · -- DICT
      rename_i d d'
      obtain ⟨ss, hss, hform⟩ := to_string_dict_form dbl d ((invariant_dict_iff d).1 hx.1)
      obtain ⟨ss', hss', hform'⟩ := to_string_dict_form dbl d' ((invariant_dict_iff d').1 hy.1)
      rw [hform, Except.ok.injEq] at hsx
      rw [hform', Except.ok.injEq] at hsy
      subst hsx hsy
      have heq' : join_comma ((List.zipWith (fun kv s => entry_text kv.1 s) d ss).map String.data)
            ++ '}' :: r1
          = join_comma ((List.zipWith (fun kv s => entry_text kv.1 s) d' ss').map String.data)
            ++ '}' :: r2 := by
        simpa [String.data_append, intercalate_data] using heq
      obtain ⟨hdd, hr⟩ := items_unique
        (fun (kv : String × JObject) t =>
          ∃ sv, JObject.to_string dbl kv.2 = .ok sv ∧ t = entry_text kv.1 sv)
        (fun kv => quote_free kv.1 ∧ kv.2.readable) '}' (Or.inr rfl)
        (by
          rintro a s _ ⟨sv, _, rfl⟩
          exact ⟨'"', a.1.data ++ ('"' :: ':' :: sv.data),
            by simp [entry_text, String.data_append], by decide⟩)
        d
        (by
          rintro a ha a2 s1 s2 q1 q2 oka oka2 ⟨sv1, hsv1, rfl⟩ ⟨sv2, hsv2, rfl⟩ d1 d2 e
          have e' : '"' :: (a.1.data ++ '"' :: (':' :: (sv1.data ++ q1)))
              = '"' :: (a2.1.data ++ '"' :: (':' :: (sv2.data ++ q2))) := by
            simpa [entry_text, String.data_append] using e
          obtain ⟨hkey, hrest⟩ := split_unique '"' _ _ _ _ oka.1 oka2.1 (List.cons.inj e').2
          obtain ⟨hval, hq⟩ := hd d rfl a ha oka.2 a2.2 sv1 sv2 q1 q2 oka2.2 hsv1 hsv2 d1 d2
            (List.cons.inj hrest).2
          exact ⟨Prod.ext (String.ext hkey) hval, hq⟩)
        d' _ _ r1 r2 (readable_dict _ d hx) (readable_dict _ d' hy)
        (entries_forall₂ dbl d ss hss) (entries_forall₂ dbl d' ss' hss') heq'
      subst hdd
      exact ⟨rfl, hr⟩

/-- C19: on Value trees satisfying the class invariant that hold no DOUBLE node
and no double quote in any STRING payload or dict key, `to_string` is injective:
two such trees with the same text are the same tree, kind by kind, scalar by
scalar, element by element and entry by entry. -/
theorem C19_to_string_injective (dbl : double_t → String) (x y : JObject)
    (hx : x.invariant ∧ x.texts_satisfy quote_free ∧ x.doubles_satisfy (fun _ => False))
    (hy : y.invariant ∧ y.texts_satisfy quote_free ∧ y.doubles_satisfy (fun _ => False))
    (h : JObject.to_string dbl x = JObject.to_string dbl y) : x = y := by
  obtain ⟨sx, hsx⟩ := to_string_total dbl x (invariant_deep_consistent x hx.1)
  have hsy : JObject.to_string dbl y = .ok sx := by rw [← h]; exact hsx
  exact (to_string_unique dbl x hx y sx sx [] [] hy hsx hsy (Or.inl rfl) (Or.inl rfl) rfl).1

theorem C19_to_string_injective_witness :
    JObject.of_list [JObject.of_int 1, JObject.of_str "a"]
      = JObject.List [JObject.of_int 1, JObject.of_str "a"] (JObject.of_bool true) :=
  have hr : (JObject.of_list [JObject.of_int 1, JObject.of_str "a"]).invariant ∧
      (JObject.of_list [JObject.of_int 1, JObject.of_str "a"]).texts_satisfy quote_free ∧
      (JObject.of_list [JObject.of_int 1, JObject.of_str "a"]).doubles_satisfy
        (fun _ => False) := by
    refine ⟨?_, ?_, ?_⟩
    · simp [JObject.invariant, JObject.every, every_element, JObject.kind_matches,
        JObject.of_list, JObject.List, JObject.of_int, JObject.Int, JObject.of_str,
        JObject.Str, JObject.m_value, JObject.m_type]
    · simp only [JObject.texts_satisfy, JObject.every, every_element, JObject.of_list,
        JObject.List, JObject.of_int, JObject.Int, JObject.of_str, JObject.Str,
        JObject.m_value, JObject.m_type]
      refine ⟨by simp, by simp, ?_, trivial⟩
      intro s hs
      simp only [JObject.mk.injEq, value_t.str.injEq, true_and] at hs
      subst hs
      decide
    · simp [JObject.doubles_satisfy, JObject.every, every_element, JObject.of_list,
        JObject.List, JObject.of_int, JObject.Int, JObject.of_str, JObject.Str,
        JObject.m_value, JObject.m_type]
  C19_to_string_injective (fun _ => "") _ _ hr hr rfl

/-! ## The rendering of a finite double is a JSON number -/

theorem toDigits_digit_run (n : Nat) : digit_run n (Nat.toDigits 10 n) := by
  obtain ⟨ds, hrun, heq⟩ := toDigitsCore_digit_run n (n + 1) [] (Nat.lt_succ_self n)
  rw [List.append_nil] at heq
  rw [Nat.toDigits, heq]
  exact hrun

theorem toDigits_json_int (n : Nat) : json_int (Nat.toDigits 10 n) :=
  digit_run_json_int n _ (toDigits_digit_run n)

theorem toDigits_digits (n : Nat) : json_digits (Nat.toDigits 10 n) :=
  ⟨(toDigits_digit_run n).2.1, (toDigits_digit_run n).2.2.2⟩

theorem pad_digits_digits (width n : Nat) : json_digits (pad_digits width n) := by
  refine ⟨?_, ?_⟩
  · intro h
    rw [pad_digits, List.append_eq_nil] at h
    exact (toDigits_digits n).1 h.2
  · intro c hc
    rw [pad_digits] at hc
    rcases List.mem_append.1 hc with hc | hc
    · rw [List.eq_of_mem_replicate hc]
      decide
    · exact (toDigits_digits n).2 c hc

theorem strip_zeros_subset (ds : List Char) : ∀ c ∈ strip_zeros ds, c ∈ ds := by
  intro c hc
  rw [strip_zeros, List.mem_reverse] at hc
  exact List.mem_reverse.1 ((List.dropWhile_suffix _).subset hc)

theorem frac_text_json (ds : List Char) (h : ∀ c ∈ ds, is_digit c) :
    json_frac (frac_text ds) := by
  rw [frac_text]
  split_ifs with h0
  · exact Or.inl rfl
  · exact Or.inr ⟨strip_zeros ds, rfl, h0, fun c hc => h c (strip_zeros_subset ds c hc)⟩

theorem exp_text_json (X : Int) : json_exp (exp_text X) := by
  refine Or.inr ⟨'e', [if X < 0 then '-' else '+'], pad_digits 2 X.natAbs, rfl, Or.inl rfl,
    ?_, pad_digits_digits 2 _⟩
  split_ifs
  · exact Or.inr (Or.inr rfl)
  · exact Or.inr (Or.inl rfl)

/-- A `%g` text is an integer part, an optional fraction and an optional exponent. -/
theorem g_text_json (D : Nat) (X : Int) :
    ∃ int frac exp, g_text D X = int ++ frac ++ exp ∧
      json_int int ∧ json_frac frac ∧ json_exp exp := by
  rw [g_text]
  split_ifs with h1 h2
  · exact ⟨_, _, _, rfl, toDigits_json_int _,
      frac_text_json _ (pad_digits_digits 5 _).2, exp_text_json X⟩
  · exact ⟨_, _, [], (List.append_nil _).symm, toDigits_json_int _,
      frac_text_json _ (pad_digits_digits _ _).2, Or.inl rfl⟩
  · refine ⟨['0'], frac_text (List.replicate (-X - 1).toNat '0' ++ pad_digits 6 D), [],
      by simp, Or.inl rfl, frac_text_json _ ?_, Or.inl rfl⟩
    intro c hc
    rcases List.mem_append.1 hc with hc | hc
    · rw [List.eq_of_mem_replicate hc]
      decide
    · exact (pad_digits_digits 6 D).2 c hc

theorem finite_text_json (num den : Nat) :
    ∃ int frac exp, finite_text num den = int ++ frac ++ exp ∧
      json_int int ∧ json_frac frac ∧ json_exp exp := by
  rw [finite_text]
  by_cases h0 : num = 0
  · rw [if_pos h0]
    exact ⟨['0'], [], [], rfl, Or.inl rfl, Or.inl rfl, Or.inl rfl⟩
  · rw [if_neg h0]
    simp only
    split_ifs
    · exact g_text_json _ _
    · exact g_text_json _ _

/-- The rendering at some doubles: 1.5, 0.1, one million, minus zero, the two
infinities and a NaN. -/
theorem os_double_samples :
    os_double ⟨0x3FF8000000000000⟩ = "1.5" ∧
    os_double ⟨0x3FB999999999999A⟩ = "0.1" ∧
    os_double ⟨0x412E848000000000⟩ = "1e+06" ∧
    os_double ⟨0x8000000000000000⟩ = "-0" ∧
    os_double ⟨0x7FF0000000000000⟩ = "inf" ∧
    os_double ⟨0xFFF0000000000000⟩ = "-inf" ∧
    os_double ⟨0x7FF8000000000000⟩ = "nan" :=
  ⟨rfl, rfl, rfl, rfl, rfl, rfl, rfl⟩

/-- The stream renders every finite double as a JSON number. -/
theorem os_double_json (f : double_t) (h : f.finite) : json_number (os_double f).data := by
  obtain ⟨int, frac, exp, heq, hi, hf, he⟩ := finite_text_json f.num f.den
  refine ⟨if f.sign then ['-'] else [], int, frac, exp, ?_, ?_, hi, hf, he⟩
  · simp only [os_double, if_neg h, heq, List.append_assoc]
  · split_ifs
    · exact Or.inr rfl
    · exact Or.inl rfl

/-- A JSON text holds a digit, a double quote, an opening bracket or brace, or one
of the letters `l` and `r` of the literal names. -/
theorem json_text_has_mark (cs : List Char) (h : json_text cs) :
    ∃ c ∈ cs, c = 'l' ∨ c = 'r' ∨ is_digit c ∨ c = '"' ∨ c = '[' ∨ c = '{' := by
  induction h with
  | lit_null => exact ⟨'l', by decide, Or.inl rfl⟩
  | lit_true => exact ⟨'r', by decide, Or.inr (Or.inl rfl)⟩
  | lit_false => exact ⟨'l', by decide, Or.inl rfl⟩
  | number cs h =>
    obtain ⟨minus, int, frac, exp, rfl, _, hi, _, _⟩ := h
    rcases hi with rfl | ⟨d, ds, rfl, hd, _⟩
    · exact ⟨'0', by simp, Or.inr (Or.inr (Or.inl (by decide)))⟩
    · refine ⟨d, by simp, Or.inr (Or.inr (Or.inl ⟨?_, hd.2⟩))⟩
      have := (char_le_iff _ _).1 hd.1
      rw [char_le_iff]
      have h0 : ('0' : Char).toNat = 48 := rfl
      have h1 : ('1' : Char).toNat = 49 := rfl
      omega
  | string cs h =>
    obtain ⟨items, _, rfl⟩ := h
    exact ⟨'"', List.mem_cons_self _ _, by simp⟩
  | array_empty w _ => exact ⟨'[', List.mem_cons_self _ _, by simp⟩
  | array items _ _ _ => exact ⟨'[', List.mem_cons_self _ _, by simp⟩
  | object_empty w _ => exact ⟨'{', List.mem_cons_self _ _, by simp⟩
  | object members _ _ _ _ => exact ⟨'{', List.mem_cons_self _ _, by simp⟩
  | pad w1 cs w2 _ _ _ ih =>
    obtain ⟨c, hc, hm⟩ := ih
    exact ⟨c, List.mem_append_left _ (List.mem_append_right _ hc), hm⟩

theorem every_mono (P P' : JObject → Prop) (K : String → Prop) (hP : ∀ n, P n → P' n)
    (x : JObject) : x.every P K → x.every P' K := by
  induction x using tree_induction with
  | node t v hl hd =>
    intro h
    cases v
    case list l =>
      rw [every_list] at h ⊢
      exact ⟨hP _ h.1, fun e he => hl l rfl e he (h.2 e he)⟩
    case dict d =>
      rw [every_dict] at h ⊢
      exact ⟨hP _ h.1, fun kv hkv => ⟨(h.2 kv hkv).1, hd d rfl kv hkv (h.2 kv hkv).2⟩⟩
    all_goals exact hP _ h

/-! ## Validity of the serialized text -/

/-- C12, as amended: for every Value tree satisfying the class invariant in which
no STRING payload and no dict key holds a double quote, a backslash or a control
character, and in which no DOUBLE payload is an infinity or a NaN, `to_string`,
with doubles rendered as the stream renders them, returns a text that is valid
JSON. -/
theorem C12_valid_json (x : JObject) (hinv : x.invariant)
    (htxt : x.texts_satisfy unescaped) (hfin : x.doubles_satisfy double_t.finite) :
    ∃ s, JObject.to_string os_double x = .ok s ∧ json_text s.data := by
  apply to_string_json os_double x hinv htxt
  refine every_mono _ _ _ ?_ x hfin
  intro n hn f hf
  exact os_double_json f (hn f hf)

theorem C12_valid_json_witness :
    JObject.to_string os_double
        (JObject.of_dict [("k", JObject.of_list
          [JObject.of_str "a", JObject.of_double ⟨0x3FF8000000000000⟩])])
      = .ok "\x7b\x22k\x22:[\x22a\x22,1.5]\x7d" ∧
    ∃ s, JObject.to_string os_double
        (JObject.of_dict [("k", JObject.of_list
          [JObject.of_str "a", JObject.of_double ⟨0x3FF8000000000000⟩])])
        = .ok s ∧ json_text s.data :=
  ⟨rfl, C12_valid_json
    (JObject.of_dict [("k", JObject.of_list
      [JObject.of_str "a", JObject.of_double ⟨0x3FF8000000000000⟩])])
    (by simp [JObject.invariant, JObject.every, every_element, every_entry,
      JObject.kind_matches, JObject.of_dict, JObject.Dict, JObject.of_list, JObject.List,
      JObject.of_double, JObject.Double, JObject.of_str, JObject.Str, JObject.m_value,
      JObject.m_type])
    (by
      simp only [JObject.texts_satisfy, JObject.every, every_element, every_entry,
        JObject.of_dict, JObject.Dict, JObject.of_list, JObject.List,
        JObject.of_double, JObject.Double, JObject.of_str, JObject.Str, JObject.m_value,
        JObject.m_type]
      refine ⟨by simp, ⟨by decide, by simp, ?_, by simp, trivial⟩, trivial⟩
      intro s hs
      simp only [JObject.mk.injEq, value_t.str.injEq, true_and] at hs
      subst hs
      decide)
    (by
      simp only [JObject.doubles_satisfy, JObject.every, every_element, every_entry,
        JObject.of_dict, JObject.Dict, JObject.of_list, JObject.List,
        JObject.of_double, JObject.Double, JObject.of_str, JObject.Str, JObject.m_value,
        JObject.m_type]
      refine ⟨by simp, ⟨trivial, by simp, by simp, ?_, trivial⟩, trivial⟩
      intro f hf
      simp only [JObject.mk.injEq, value_t.double.injEq, true_and] at hf
      subst hf
      decide)⟩

/-- C12 as stated fails at two Values without any STRING payload. The DICT Value
with the single key made of one double quote and a null value has the text made of
an opening brace, three double quotes, a colon, `null` and a closing brace, which
is not valid JSON. The DOUBLE Value holding positive infinity has the text `inf`,
which is not valid JSON either. -/
theorem C12_counterexample :
    ((JObject.of_dict [("\x22", JObject.new)]).invariant ∧
      (JObject.of_dict [("\x22", JObject.new)]).payloads_satisfy unescaped ∧
      (JObject.of_dict [("\x22", JObject.new)]).doubles_satisfy double_t.finite ∧
      JObject.to_string os_double (JObject.of_dict [("\x22", JObject.new)])
        = .ok "\x7b\x22\x22\x22:null\x7d" ∧
      ¬ json_text "\x7b\x22\x22\x22:null\x7d".data) ∧
    ((JObject.of_double ⟨0x7FF0000000000000⟩).invariant ∧
      (JObject.of_double ⟨0x7FF0000000000000⟩).texts_satisfy unescaped ∧
      JObject.to_string os_double (JObject.of_double ⟨0x7FF0000000000000⟩) = .ok "inf" ∧
      ¬ json_text "inf".data) := by
  refine ⟨⟨?_, ?_, ?_, rfl, ?_⟩, ?_, ?_, rfl, ?_⟩
  · simp [JObject.invariant, JObject.every, every_element, every_entry,
      JObject.kind_matches, JObject.of_dict, JObject.Dict, JObject.new, JObject.m_value,
      JObject.m_type]
  · simp [JObject.payloads_satisfy, JObject.every, every_element, every_entry,
      JObject.of_dict, JObject.Dict, JObject.new, JObject.m_value, JObject.m_type]
  · simp [JObject.doubles_satisfy, JObject.every, every_element, every_entry,
      JObject.of_dict, JObject.Dict, JObject.new, JObject.m_value, JObject.m_type]
  · intro h
    have := json_text_quotes_even _ h (by decide)
    revert this
    decide
  · simp [JObject.invariant, JObject.every, JObject.kind_matches, JObject.of_double,
      JObject.Double, JObject.m_type]
  · simp [JObject.texts_satisfy, JObject.every, JObject.of_double, JObject.Double,
      JObject.m_type]
  · intro h
    obtain ⟨c, hc, hm⟩ := json_text_has_mark _ h
    have hc' : c = 'i' ∨ c = 'n' ∨ c = 'f' := by
      simpa using hc
    rcases hc' with rfl | rfl | rfl <;> revert hm <;> decide

end json
